import Mathlib

/-!
Verification of the whisper-scribe streaming voice pipeline.

This file shallowly embeds the TypeScript sources (`src/js/src/audioUtils.ts`,
`src/js/src/voiceReceiver.ts`, `src/js/src/logs.ts`, `src/js/src/session.ts`'s
rolling-context helpers, and `src/js/src/websocketClient.ts`) as pure Lean
functions, and proves the spec-level properties about them.

Modelling conventions:
* JavaScript `number` arithmetic is modelled over `ℚ` (exact arithmetic; the
  source relies on the same algebraic identities).
* `Int16Array` contents are `List ℤ` (each element the signed 16-bit value).
* `Math.round` is `jsRound` (half-up, toward +∞, as in JS), the ToInt32
  coercion `| 0` is `jsTrunc` (truncation toward zero), storing an integer
  into an `Int16Array` slot is `toI16` (wrap-around mod 2^16).
* External collaborators (the native WebRTC VAD, `JSON.parse`/`stringify`,
  the `ws` socket) are modelled as oracle parameters; everything computed by
  the repository's own code is translated from the source.
-/

namespace WhisperScribe

/-- JS `Math.round`: round half up (toward +∞). -/
def jsRound (q : ℚ) : ℤ := ⌊q + 1/2⌋

/-- JS `| 0` (ToInt32 on an in-range value): truncation toward zero. -/
def jsTrunc (q : ℚ) : ℤ := if 0 ≤ q then ⌊q⌋ else -⌊-q⌋

/-- Storing an integer into an `Int16Array` slot: wrap to `[-32768, 32767]`. -/
def toI16 (v : ℤ) : ℤ := (v + 32768) % 65536 - 32768

theorem jsRound_intCast (n : ℤ) : jsRound (n : ℚ) = n := by
  rw [jsRound, Int.floor_int_add]
  norm_num

theorem jsTrunc_intCast (n : ℤ) : jsTrunc (n : ℚ) = n := by
  unfold jsTrunc
  split
  · exact Int.floor_intCast n
  · push_neg at *
    rw [show -(n : ℚ) = ((-n : ℤ) : ℚ) by push_cast; ring, Int.floor_intCast]
    ring

theorem toI16_eq_self {v : ℤ} (h1 : -32768 ≤ v) (h2 : v ≤ 32767) : toI16 v = v := by
  unfold toI16
  omega

theorem jsRound_le (q : ℚ) : (jsRound q : ℚ) ≤ q + 1/2 := Int.floor_le _

theorem jsRound_mono {a b : ℚ} (h : a ≤ b) : jsRound a ≤ jsRound b :=
  Int.floor_le_floor (by linarith)

/-- `audioUtils.ts` `downmixToMono` per-pair step:
`v = (a + b) / 2` clamped to the i16 range, then stored (truncating). -/
def downmixStep (a b : ℤ) : ℤ :=
  let v : ℚ := (a + b) / 2
  jsTrunc (if v < -32768 then -32768 else if 32767 < v then 32767 else v)

/-- `audioUtils.ts` `downmixToMono` for interleaved stereo (`channels = 2`):
average each L/R pair with saturating clamp. -/
def downmixToMono : List ℤ → List ℤ
  | a :: b :: rest => downmixStep a b :: downmixToMono rest
  | _ => []

/-- `audioUtils.ts` `resampleLinear`: linear-interpolation resampler.
Identity when the rates agree; otherwise output length
`max 1 (round (len * toRate / fromRate))` and each output sample is the
interpolated value converted by `| 0` and stored into the `Int16Array`. -/
def resampleLinear (x : List ℤ) (fromRate toRate : ℚ) : List ℤ :=
  if fromRate = toRate then x
  else
    let ratio := toRate / fromRate
    let newLength := max 1 (jsRound ((x.length : ℚ) * ratio))
    (List.range newLength.toNat).map (fun (i : ℕ) =>
      let srcPos : ℚ := (i : ℚ) / ratio
      let i0 : ℤ := ⌊srcPos⌋
      let i1 : ℤ := min ((x.length : ℤ) - 1) (i0 + 1)
      let t : ℚ := srcPos - (i0 : ℚ)
      toI16 (jsTrunc ((x.getD i0.toNat 0 : ℚ) * (1 - t) + (x.getD i1.toNat 0 : ℚ) * t)))

theorem getD_range_map (n : ℕ) (f : ℕ → ℤ) (i : ℕ) (h : i < n) :
    ((List.range n).map f).getD i 0 = f i := by
  simp [List.getD_eq_getElem?_getD, List.getElem?_map, List.getElem?_range, h]

/-- C2 counterexample: the code converts each interpolated sample with `| 0`
(truncation toward zero), not `Math.round`. At input `[0, 1]` resampled from
rate 1 to rate 2, output index 1 has `s = 1/2`, `t = 1/2`, interpolated value
`1/2`: the code emits `0` while the claim's `round` formula predicts `1`.
Also, for an empty input with equal rates the code returns length 0, not the
claimed `max(1, round(0)) = 1`. -/
theorem resampleLinear_round_cex :
    resampleLinear [0, 1] 1 2 = [0, 0, 1, 1] ∧
    toI16 (jsRound ((0 : ℚ) * (1 - 1/2) + (1 : ℚ) * (1/2))) = 1 ∧
    (resampleLinear [0, 1] 1 2).getD 1 0 = 0 ∧
    resampleLinear ([] : List ℤ) 5 5 = [] ∧
    (max 1 (jsRound ((0 : ℚ) * 5 / 5))).toNat = 1 := by
  with_unfolding_all decide

/-- The spec's per-sample interpolation formula for `resample`: source
position `s = i * fromRate / toRate`, `i0 = ⌊s⌋`, `i1 = min (len-1) (i0+1)`,
`t = s - i0`, value `x[i0]*(1-t) + x[i1]*t`. -/
def resampleSample (x : List ℤ) (fromRate toRate : ℚ) (i : ℕ) : ℚ :=
  let s : ℚ := (i : ℚ) * fromRate / toRate
  let i0 : ℤ := ⌊s⌋
  let i1 : ℤ := min ((x.length : ℤ) - 1) (i0 + 1)
  let t : ℚ := s - (i0 : ℚ)
  (x.getD i0.toNat 0 : ℚ) * (1 - t) + (x.getD i1.toNat 0 : ℚ) * t

theorem resampleLinear_ne_eq (x : List ℤ) (fromRate toRate : ℚ)
    (hne : fromRate ≠ toRate) :
    resampleLinear x fromRate toRate =
      (List.range (max 1 (jsRound ((x.length : ℚ) * toRate / fromRate))).toNat).map
        (fun i => toI16 (jsTrunc (resampleSample x fromRate toRate i))) := by
  unfold resampleLinear resampleSample
  rw [if_neg hne]
  dsimp only
  rw [← mul_div_assoc]
  refine List.map_congr_left fun i _ => ?_
  rw [div_div_eq_mul_div]

/-- C2 (amended): for every nonempty mono i16 input and positive rates,
`resampleLinear` returns `max 1 (round (len * toRate / fromRate))` samples,
and output index `i` carries the interpolated value at `s = i*fromRate/toRate`
(`i0 = ⌊s⌋`, `i1 = min (len-1) (i0+1)`, `t = s - i0`) truncated toward zero
(JS `| 0`) and stored as i16 — truncation, not rounding. -/
theorem resampleLinear_spec (x : List ℤ) (fromRate toRate : ℚ)
    (hx : x ≠ []) (hfrom : 0 < fromRate) (hto : 0 < toRate)
    (hrange : ∀ v ∈ x, -32768 ≤ v ∧ v ≤ 32767) :
    (resampleLinear x fromRate toRate).length
      = (max 1 (jsRound ((x.length : ℚ) * toRate / fromRate))).toNat ∧
    ∀ i < (resampleLinear x fromRate toRate).length,
      (resampleLinear x fromRate toRate).getD i 0 =
        toI16 (jsTrunc (resampleSample x fromRate toRate i)) := by
  have hlen : 1 ≤ x.length := List.length_pos.mpr hx
  by_cases heq : fromRate = toRate
  · subst heq
    have hne : fromRate ≠ 0 := ne_of_gt hfrom
    have hself : (x.length : ℚ) * fromRate / fromRate = (x.length : ℚ) := by
      field_simp
    have hsample : ∀ i (hi2 : i < x.length), x.getD i 0 = x.get ⟨i, hi2⟩ := by
      intro i hi2
      rw [List.getD_eq_getElem x 0 hi2]
      rfl
    constructor
    · rw [resampleLinear, if_pos rfl, hself]
      rw [show ((x.length : ℚ)) = ((x.length : ℤ) : ℚ) by push_cast; ring, jsRound_intCast]
      omega
    · intro i hi
      rw [resampleLinear, if_pos rfl] at hi ⊢
      have hs : (i : ℚ) * fromRate / fromRate = (i : ℚ) := by field_simp
      have hfl : ⌊(i : ℚ)⌋ = (i : ℤ) := Int.floor_natCast i
      have hv : resampleSample x fromRate fromRate i = ((x.get ⟨i, hi⟩ : ℤ) : ℚ) := by
        rw [resampleSample]
        simp only [hs, hfl, Int.toNat_natCast]
        rw [hsample i hi]
        push_cast
        ring
      rw [hv, jsTrunc_intCast]
      obtain ⟨h1, h2⟩ := hrange _ (x.get_mem i hi)
      rw [toI16_eq_self h1 h2, hsample i hi]
  · constructor
    · rw [resampleLinear_ne_eq x _ _ heq, List.length_map, List.length_range]
    · intro i hi
      rw [resampleLinear_ne_eq x _ _ heq, List.length_map, List.length_range] at hi
      rw [resampleLinear_ne_eq x _ _ heq, getD_range_map _ _ _ hi]

/-- Witness for the amended C2 at a concrete input: two samples downsampled
48 kHz → 16 kHz give one output sample, the interpolation at `s = 0`. -/
theorem resampleLinear_spec_witness :
    (resampleLinear [0, 100] 48000 16000).length
        = (max 1 (jsRound ((([0, 100] : List ℤ).length : ℚ) * 16000 / 48000))).toNat ∧
    (resampleLinear [0, 100] 48000 16000).getD 0 0
        = toI16 (jsTrunc (resampleSample [0, 100] 48000 16000 0)) := by
  have h := resampleLinear_spec [0, 100] 48000 16000 (by decide) (by norm_num) (by norm_num)
    (by decide)
  exact ⟨h.1, h.2 0 (by rw [h.1]; with_unfolding_all decide)⟩

/-! ## Session log reader (`logs.ts` `readLogEntriesStrict`)

A log file is a sequence of lines; each trims to blank, parses as JSON
(yielding a record of some type `α`), or fails to parse.  `JSON.parse` is
external, so a line is embedded by its observable outcome. -/

/-- One line of `log.jsonl` as seen by `readLogEntriesStrict`: blank after
`trim()`, a line that parses to record `e`, or a line whose parse throws. -/
inductive LogLine (α : Type) where
  | blank
  | ok (e : α)
  | bad
deriving DecidableEq

/-- Loop state of `readLogEntriesStrict`: accumulated records, current
1-based line number, last non-empty line number (0 when none yet), and the
first malformed line number (null when none). -/
structure ReadState (α : Type) where
  out : List α
  lineNo : ℕ
  lastNonEmpty : ℕ
  malformed : Option ℕ

/-- One iteration of the `for await (const line of rl)` loop in
`readLogEntriesStrict`. -/
def readStep {α : Type} (st : ReadState α) (l : LogLine α) : ReadState α :=
  let n := st.lineNo + 1
  match l with
  | .blank => { st with lineNo := n }
  | .ok e => { out := st.out ++ [e], lineNo := n, lastNonEmpty := n, malformed := st.malformed }
  | .bad =>
      { out := st.out, lineNo := n, lastNonEmpty := n,
        malformed := match st.malformed with | some m => some m | none => some n }

/-- `logs.ts` `readLogEntriesStrict`: run the line loop, then throw
(`.error` with the line number) iff a malformed line was seen and it is not
the last non-empty line. -/
def readLogEntriesStrict {α : Type} (lines : List (LogLine α)) : Except ℕ (List α) :=
  let st := lines.foldl readStep ⟨[], 0, 0, none⟩
  match st.malformed with
  | some m => if m = st.lastNonEmpty then .ok st.out else .error m
  | none => .ok st.out

/-- Spec-side: the records of all lines that parse. -/
def okEntries {α : Type} (lines : List (LogLine α)) : List α :=
  lines.filterMap fun l => match l with | .ok e => some e | _ => none

/-- Spec-side: 1-based number of the last non-blank line (0 when none),
starting the count after line `n` with current value `cur`. -/
def lastNEAux {α : Type} (n cur : ℕ) : List (LogLine α) → ℕ
  | [] => cur
  | l :: ls => lastNEAux (n + 1) (match l with | .blank => cur | _ => n + 1) ls

def lastNonEmptyNo {α : Type} (lines : List (LogLine α)) : ℕ := lastNEAux 0 0 lines

/-- Spec-side: 1-based number of the first malformed line. -/
def firstBadAux {α : Type} (n : ℕ) (m : Option ℕ) : List (LogLine α) → Option ℕ
  | [] => m
  | l :: ls =>
      firstBadAux (n + 1)
        (match l, m with | .bad, none => some (n + 1) | _, _ => m) ls

def firstBadNo {α : Type} (lines : List (LogLine α)) : Option ℕ := firstBadAux 0 none lines

theorem foldl_readStep {α : Type} (ls : List (LogLine α)) :
    ∀ (out : List α) (n last : ℕ) (m : Option ℕ),
      ls.foldl readStep ⟨out, n, last, m⟩ =
        ⟨out ++ okEntries ls, n + ls.length, lastNEAux n last ls, firstBadAux n m ls⟩ := by
  induction ls with
  | nil => intro out n last m; simp [okEntries, lastNEAux, firstBadAux]
  | cons l ls ih =>
      intro out n last m
      cases l with
      | blank =>
          rw [List.foldl_cons,
            show readStep ⟨out, n, last, m⟩ LogLine.blank = ⟨out, n + 1, last, m⟩ from rfl,
            ih]
          show (⟨_, _, _, _⟩ : ReadState α) = ⟨_, _, _, _⟩
          congr 1
          simp only [List.length_cons]
          omega
      | ok e =>
          rw [List.foldl_cons,
            show readStep ⟨out, n, last, m⟩ (LogLine.ok e)
              = ⟨out ++ [e], n + 1, n + 1, m⟩ from rfl,
            ih]
          show (⟨_, _, _, _⟩ : ReadState α) = ⟨_, _, _, _⟩
          congr 1
          · simp [okEntries]
          · simp only [List.length_cons]
            omega
      | bad =>
          cases m with
          | none =>
              rw [List.foldl_cons,
                show readStep ⟨out, n, last, none⟩ LogLine.bad
                  = ⟨out, n + 1, n + 1, some (n + 1)⟩ from rfl,
                ih]
              show (⟨_, _, _, _⟩ : ReadState α) = ⟨_, _, _, _⟩
              congr 1
              simp only [List.length_cons]
              omega
          | some m0 =>
              rw [List.foldl_cons,
                show readStep ⟨out, n, last, some m0⟩ LogLine.bad
                  = ⟨out, n + 1, n + 1, some m0⟩ from rfl,
                ih]
              show (⟨_, _, _, _⟩ : ReadState α) = ⟨_, _, _, _⟩
              congr 1
              simp only [List.length_cons]
              omega

theorem lastNEAux_ge {α : Type} (ls : List (LogLine α)) :
    ∀ n cur, cur ≤ n → cur ≤ lastNEAux n cur ls := by
  induction ls with
  | nil => intro n cur _; exact le_refl _
  | cons l ls ih =>
      intro n cur hcn
      cases l with
      | blank => exact ih (n + 1) cur (by omega)
      | ok e => exact le_trans (by omega) (ih (n + 1) (n + 1) (by omega))
      | bad => exact le_trans (by omega) (ih (n + 1) (n + 1) (by omega))

theorem lastNEAux_nonblank {α : Type} (ls : List (LogLine α)) :
    ∀ n cur j (h : j < ls.length), cur ≤ n → ls.get ⟨j, h⟩ ≠ LogLine.blank →
      n + j + 1 ≤ lastNEAux n cur ls := by
  induction ls with
  | nil => intro n cur j h; simp at h
  | cons l ls ih =>
      intro n cur j h hcn hnb
      cases j with
      | zero =>
          cases l with
          | blank => exact absurd rfl hnb
          | ok e =>
              show n + 0 + 1 ≤ lastNEAux (n + 1) (n + 1) ls
              have := lastNEAux_ge ls (n + 1) (n + 1) (le_refl _)
              omega
          | bad =>
              show n + 0 + 1 ≤ lastNEAux (n + 1) (n + 1) ls
              have := lastNEAux_ge ls (n + 1) (n + 1) (le_refl _)
              omega
      | succ j' =>
          have h' : j' < ls.length := by simpa using h
          have hnb' : ls.get ⟨j', h'⟩ ≠ LogLine.blank := hnb
          cases l with
          | blank =>
              show n + (j' + 1) + 1 ≤ lastNEAux (n + 1) cur ls
              have := ih (n + 1) cur j' h' (by omega) hnb'
              omega
          | ok e =>
              show n + (j' + 1) + 1 ≤ lastNEAux (n + 1) (n + 1) ls
              have := ih (n + 1) (n + 1) j' h' (le_refl _) hnb'
              omega
          | bad =>
              show n + (j' + 1) + 1 ≤ lastNEAux (n + 1) (n + 1) ls
              have := ih (n + 1) (n + 1) j' h' (le_refl _) hnb'
              omega

theorem firstBadAux_keep {α : Type} (ls : List (LogLine α)) :
    ∀ n m0, firstBadAux n (some m0) ls = some m0 := by
  induction ls with
  | nil => intro n m0; rfl
  | cons l ls ih => intro n m0; cases l <;> simp [firstBadAux, ih]

theorem firstBadAux_none_iff {α : Type} (ls : List (LogLine α)) :
    ∀ n, firstBadAux n none ls = none ↔ ∀ l ∈ ls, l ≠ LogLine.bad := by
  induction ls with
  | nil => intro n; simp [firstBadAux]
  | cons l ls ih =>
      intro n
      cases l with
      | blank => simp [firstBadAux, ih]
      | ok e => simp [firstBadAux, ih]
      | bad => simp [firstBadAux, firstBadAux_keep]

theorem firstBadAux_some_iff {α : Type} (ls : List (LogLine α)) :
    ∀ n m, firstBadAux n none ls = some m ↔
      ∃ j, ∃ (h : j < ls.length), ls.get ⟨j, h⟩ = LogLine.bad ∧ m = n + j + 1 ∧
        ∀ k (hk : k < ls.length), k < j → ls.get ⟨k, hk⟩ ≠ LogLine.bad := by
  induction ls with
  | nil => intro n m; simp [firstBadAux]
  | cons l ls ih =>
      intro n m
      by_cases hb : l = LogLine.bad
      · subst hb
        rw [show firstBadAux n none (LogLine.bad :: ls) = firstBadAux (n + 1) (some (n + 1)) ls
              from rfl,
          firstBadAux_keep]
        constructor
        · intro h
          have hmn : m = n + 1 := by
            have := Option.some.inj h
            omega
          exact ⟨0, by simp, rfl, by omega, fun k hk hk0 => absurd hk0 (by omega)⟩
        · rintro ⟨j, hj, hbad, hm, hmin⟩
          cases j with
          | zero => exact congrArg some (by omega)
          | succ j' =>
              exact absurd (hmin 0 (by simp) (by omega)) (by simp)
      · have hstep : firstBadAux n none (l :: ls) = firstBadAux (n + 1) none ls := by
          cases l with
          | blank => rfl
          | ok e => rfl
          | bad => exact absurd rfl hb
        rw [hstep, ih]
        constructor
        · rintro ⟨j, hj, hbad, hm, hmin⟩
          refine ⟨j + 1, by simpa using hj, by simpa using hbad, by omega, ?_⟩
          intro k hk hkj
          cases k with
          | zero => simpa using hb
          | succ k' =>
              have hk' : k' < ls.length := by simpa using hk
              simpa using hmin k' hk' (by omega)
        · rintro ⟨j, hj, hbad, hm, hmin⟩
          cases j with
          | zero => exact absurd (by simpa using hbad) hb
          | succ j' =>
              have hj' : j' < ls.length := by simpa using hj
              refine ⟨j', hj', by simpa using hbad, by omega, ?_⟩
              intro k hk hkj
              have : k + 1 < (l :: ls).length := by simpa using Nat.succ_lt_succ hk
              simpa using hmin (k + 1) this (by omega)

theorem readLog_state {α : Type} (lines : List (LogLine α)) :
    lines.foldl readStep ⟨[], 0, 0, none⟩ =
      ⟨okEntries lines, lines.length, lastNonEmptyNo lines, firstBadNo lines⟩ := by
  simpa [lastNonEmptyNo, firstBadNo] using foldl_readStep lines [] 0 0 none

/-- C3: `readLogEntriesStrict` (1) returns all parsed records when every
non-blank line parses; (2) returns the preceding parsed records when exactly
one line fails to parse and it is the last non-blank line; (3) throws,
reporting the (first) failing line's number, whenever some line other than
the last non-blank one fails to parse. -/
theorem readLogEntriesStrict_spec {α : Type} (lines : List (LogLine α)) :
    ((∀ l ∈ lines, l ≠ LogLine.bad) →
        readLogEntriesStrict lines = .ok (okEntries lines)) ∧
    (∀ j (hj : j < lines.length),
        lines.get ⟨j, hj⟩ = LogLine.bad →
        (∀ k (hk : k < lines.length), k ≠ j → lines.get ⟨k, hk⟩ ≠ LogLine.bad) →
        j + 1 = lastNonEmptyNo lines →
        readLogEntriesStrict lines = .ok (okEntries lines)) ∧
    (∀ i (hi : i < lines.length),
        lines.get ⟨i, hi⟩ = LogLine.bad →
        i + 1 ≠ lastNonEmptyNo lines →
        ∃ j, ∃ (hj : j < lines.length),
          readLogEntriesStrict lines = .error (j + 1) ∧
          lines.get ⟨j, hj⟩ = LogLine.bad ∧
          j + 1 ≠ lastNonEmptyNo lines ∧
          ∀ k (hk : k < lines.length), k < j → lines.get ⟨k, hk⟩ ≠ LogLine.bad) := by
  refine ⟨?_, ?_, ?_⟩
  · intro hall
    have hnone : firstBadNo lines = none := (firstBadAux_none_iff lines 0).mpr hall
    rw [readLogEntriesStrict, readLog_state]
    simp only [hnone]
  · intro j hj hbad huniq hlast
    have hfb : firstBadNo lines = some (j + 1) := by
      rw [firstBadNo, firstBadAux_some_iff]
      exact ⟨j, hj, hbad, by omega, fun k hk hkj => huniq k hk (by omega)⟩
    rw [readLogEntriesStrict, readLog_state]
    simp only [hfb]
    rw [if_pos hlast]
  · intro i hi hbad hlast
    have hne : firstBadNo lines ≠ none := by
      intro h
      exact absurd hbad ((firstBadAux_none_iff lines 0).mp h _ (lines.get_mem i hi))
    obtain ⟨m, hm⟩ := Option.ne_none_iff_exists'.mp hne
    obtain ⟨j, hj, hjbad, hmj, hmin⟩ := (firstBadAux_some_iff lines 0 m).mp hm
    have hij : i = j ∨ j < i := by
      rcases lt_trichotomy i j with h | h | h
      · exact absurd hbad (hmin i hi h)
      · exact Or.inl h
      · exact Or.inr h
    have hjne : j + 1 ≠ lastNonEmptyNo lines := by
      rcases hij with rfl | hlt
      · exact hlast
      · intro hcontra
        have hle : 0 + i + 1 ≤ lastNEAux 0 0 lines :=
          lastNEAux_nonblank lines 0 0 i hi (le_refl 0) (by rw [hbad]; intro h; cases h)
        rw [lastNonEmptyNo] at hcontra
        omega
    refine ⟨j, hj, ?_, hjbad, hjne, hmin⟩
    rw [readLogEntriesStrict, readLog_state]
    have hmj' : m = j + 1 := by omega
    subst hmj'
    simp only [hm]
    rw [if_neg (by omega)]

/-- Concrete log files for exercising `readLogEntriesStrict`. -/
def c3linesAll : List (LogLine ℕ) := [.ok 1, .blank, .ok 2]

def c3linesTrailingBad : List (LogLine ℕ) := [.ok 1, .ok 2, .bad]

def c3linesMiddleBad : List (LogLine ℕ) := [.ok 1, .bad, .ok 2]

/-- Witness for C3 at concrete inputs: a fully-parsing file yields all
records, a file with only a corrupted last line yields the earlier records,
and a corrupted middle line is an error naming that line. -/
theorem readLogEntriesStrict_spec_witness :
    readLogEntriesStrict c3linesAll = .ok (okEntries c3linesAll) ∧
    readLogEntriesStrict c3linesTrailingBad = .ok (okEntries c3linesTrailingBad) ∧
    (∃ j, ∃ (hj : j < c3linesMiddleBad.length),
      readLogEntriesStrict c3linesMiddleBad = .error (j + 1) ∧
      c3linesMiddleBad.get ⟨j, hj⟩ = LogLine.bad ∧
      j + 1 ≠ lastNonEmptyNo c3linesMiddleBad ∧
      ∀ k (hk : k < c3linesMiddleBad.length), k < j →
        c3linesMiddleBad.get ⟨k, hk⟩ ≠ LogLine.bad) := by
  refine ⟨(readLogEntriesStrict_spec c3linesAll).1 (by decide),
    (readLogEntriesStrict_spec c3linesTrailingBad).2.1 2 (by decide) (by decide)
      (by decide) (by decide),
    (readLogEntriesStrict_spec c3linesMiddleBad).2.2 1 (by decide) (by decide) (by decide)⟩

/-! ## Inference transport (`websocketClient.ts` `PythonWsClient.send`)

The `ws` socket itself is external; a connection is observable through its
`readyState`.  `JSON.stringify` is an external serializer, passed as a
parameter. -/

/-- WebSocket `readyState` values (`CONNECTING`/`OPEN`/`CLOSING`/`CLOSED`).
`wsOpen` stands for `WebSocket.OPEN`. -/
inductive ReadyState where
  | connecting
  | wsOpen
  | closing
  | closed
deriving DecidableEq

/-- The fields of `PythonWsClient` (the message callback is external).
`ws = none` models the socket not yet having been created. -/
structure PythonWsClient (μ : Type) where
  url : String
  reconnectDelay : ℕ
  shouldRun : Bool
  ws : Option ReadyState

/-- `PythonWsClient.send`: transmit `JSON.stringify(msg)` when the socket
exists and is `OPEN`; otherwise only log.  Returns the (unchanged) client
and the transmitted text, if any. -/
def wsSend {μ : Type} (stringify : μ → String) (c : PythonWsClient μ) (msg : μ) :
    PythonWsClient μ × Option String :=
  match c.ws with
  | some s => if s = ReadyState.wsOpen then (c, some (stringify msg)) else (c, none)
  | none => (c, none)

/-- C9: when the socket is absent or not OPEN, `send` drops the message
without throwing, queuing, or touching any state; when it is OPEN, exactly
the JSON serialization of the message is transmitted. -/
theorem wsSend_spec {μ : Type} (stringify : μ → String) (c : PythonWsClient μ) (msg : μ) :
    (c.ws = none ∨ c.ws ≠ some ReadyState.wsOpen →
        wsSend stringify c msg = (c, none)) ∧
    (c.ws = some ReadyState.wsOpen →
        wsSend stringify c msg = (c, some (stringify msg))) := by
  constructor
  · rintro (h | h)
    · simp [wsSend, h]
    · rcases hw : c.ws with _ | s
      · simp [wsSend, hw]
      · have hs : s ≠ ReadyState.wsOpen := fun hs => h (hs ▸ hw)
        simp [wsSend, hw, hs]
  · intro h
    simp [wsSend, h]

/-- Witness for C9: a client whose socket is `CLOSED` drops the message and
keeps its state; an `OPEN` client transmits the serialized message. -/
theorem wsSend_spec_witness :
    wsSend (fun n : ℕ => toString n) ⟨"ws://x", 3000, true, some ReadyState.closed⟩ 7
      = (⟨"ws://x", 3000, true, some ReadyState.closed⟩, none) ∧
    wsSend (fun n : ℕ => toString n) ⟨"ws://x", 3000, true, some ReadyState.wsOpen⟩ 7
      = (⟨"ws://x", 3000, true, some ReadyState.wsOpen⟩, some (toString 7)) :=
  ⟨(wsSend_spec (fun n : ℕ => toString n) _ 7).1 (Or.inr (by decide)),
   (wsSend_spec (fun n : ℕ => toString n) _ 7).2 rfl⟩

/-! ## Rolling prompt context (`session.ts` `appendContext`,
`getContextText`, `composePromptWithContext`)

Strings are `List Char`.  The Unicode character classes used by the source
(`\s` for the split, `\p{L}\p{N}` for the strip) are passed as predicates
`isSpace` / `isWord`. -/

/-- A JS string as a list of characters. -/
abbrev Word := List Char

/-- JS `text.split(/\s+/)` modulo empty fragments: split at every whitespace
character.  Empty fragments (JS's boundary artifacts and the extra empties
this per-character split produces inside runs) are dropped by the caller's
length filter, so the two splits agree downstream. -/
def wsSplit (isSpace : Char → Bool) : Word → List Word
  | [] => [[]]
  | c :: rest =>
      let r := wsSplit isSpace rest
      if isSpace c then [] :: r
      else (c :: r.headI) :: r.tail

/-- The per-token strip `t.replace(/^[^\p{L}\p{N}]+|[^\p{L}\p{N}]+$/gu, '')`:
remove the maximal leading and trailing runs of non-word characters. -/
def stripEnds (isWord : Char → Bool) (t : Word) : Word :=
  ((t.dropWhile fun c => !isWord c).reverse.dropWhile fun c => !isWord c).reverse

/-- `appendContext`'s tokenizer: split on whitespace, strip each token's
ends, keep only nonempty tokens. -/
def tokenizeContext (isSpace isWord : Char → Bool) (text : Word) : List Word :=
  ((wsSplit isSpace text).map (stripEnds isWord)).filter fun t => decide (0 < t.length)

/-- `Session.appendContext`: push the tokens, then `splice` away the oldest
words beyond `maxContextWords`. -/
def appendContext (isSpace isWord : Char → Bool) (maxW : ℕ)
    (ctx : List Word) (text : Word) : List Word :=
  if text = [] then ctx
  else
    let tokens := tokenizeContext isSpace isWord text
    if tokens = [] then ctx
    else
      let ctx2 := ctx ++ tokens
      if maxW < ctx2.length then ctx2.drop (ctx2.length - maxW) else ctx2

/-- JS `arr.slice(-n)`: the last `n` elements — except that `slice(-0)` is
`slice(0)`, the whole array. -/
def jsSliceLast {β : Type} (n : ℕ) (l : List β) : List β :=
  if n = 0 then l else l.drop (l.length - n)

/-- JS `parts.join(' ')`. -/
def joinSpace (ws : List Word) : Word := List.intercalate [' '] ws

/-- JS `String.trim()`. -/
def trimWs (isSpace : Char → Bool) (t : Word) : Word :=
  ((t.dropWhile isSpace).reverse.dropWhile isSpace).reverse

/-- `Session.getContextText`: empty context reads as the empty string;
otherwise the last `maxContextWords` words joined by spaces. -/
def getContextText (maxW : ℕ) (ctx : List Word) : Word :=
  if ctx = [] then [] else joinSpace (jsSliceLast maxW ctx)

/-- `Session.composePromptWithContext`:
`[asrPrompt?.trim(), getContextText()].filter(Boolean).join(' ')`. -/
def composePromptWithContext (isSpace : Char → Bool) (asrPrompt : Option Word)
    (maxW : ℕ) (ctx : List Word) : Word :=
  joinSpace ((((asrPrompt.map (trimWs isSpace)).toList) ++ [getContextText maxW ctx]).filter
    fun t => decide (0 < t.length))

/-- The context after feeding a sequence of texts (transcriptions and text
messages) into a fresh session. -/
def runContext (isSpace isWord : Char → Bool) (maxW : ℕ) (texts : List Word) : List Word :=
  texts.foldl (appendContext isSpace isWord maxW) []

/-- The last `n` elements of a list (spec-side). -/
def lastN {β : Type} (n : ℕ) (l : List β) : List β := l.drop (l.length - n)

theorem lastN_length_le {β : Type} (n : ℕ) (l : List β) : (lastN n l).length ≤ n := by
  simp only [lastN, List.length_drop]
  omega

theorem lastN_of_le {β : Type} {n : ℕ} {l : List β} (h : l.length ≤ n) : lastN n l = l := by
  simp only [lastN, show l.length - n = 0 by omega, List.drop_zero]

theorem lastN_append_lastN {β : Type} (n : ℕ) (a b : List β) :
    lastN n (lastN n a ++ b) = lastN n (a ++ b) := by
  have hk : a.length - n ≤ a.length := by omega
  simp only [lastN]
  rw [← List.drop_append_of_le_length hk, List.drop_drop]
  congr 1
  simp only [List.length_append, List.length_drop]
  omega

theorem tokenizeContext_nil (isSpace isWord : Char → Bool) :
    tokenizeContext isSpace isWord [] = [] := rfl

theorem appendContext_eq_lastN (isSpace isWord : Char → Bool) (maxW : ℕ)
    (ctx : List Word) (text : Word) (hctx : ctx.length ≤ maxW) :
    appendContext isSpace isWord maxW ctx text =
      lastN maxW (ctx ++ tokenizeContext isSpace isWord text) := by
  rw [appendContext]
  by_cases htext : text = []
  · rw [if_pos htext, htext, tokenizeContext_nil, List.append_nil, lastN_of_le hctx]
  · rw [if_neg htext]
    by_cases htok : tokenizeContext isSpace isWord text = []
    · rw [if_pos htok, htok, List.append_nil]
      exact (lastN_of_le hctx).symm
    · rw [if_neg htok]
      by_cases hlong : maxW < (ctx ++ tokenizeContext isSpace isWord text).length
      · rw [if_pos hlong]; rfl
      · rw [if_neg hlong]
        exact (lastN_of_le (by omega)).symm

theorem runContext_eq_lastN (isSpace isWord : Char → Bool) (maxW : ℕ) (texts : List Word) :
    runContext isSpace isWord maxW texts =
      lastN maxW ((texts.map (tokenizeContext isSpace isWord)).flatten) := by
  rw [runContext]
  suffices h : ∀ (ctx : List Word), ctx.length ≤ maxW →
      texts.foldl (appendContext isSpace isWord maxW) ctx =
        lastN maxW (ctx ++ (texts.map (tokenizeContext isSpace isWord)).flatten) by
    simpa using h [] (by simp)
  induction texts with
  | nil =>
      intro ctx hctx
      simp only [List.foldl_nil, List.map_nil, List.flatten_nil, List.append_nil]
      exact (lastN_of_le hctx).symm
  | cons t ts ih =>
      intro ctx hctx
      rw [List.foldl_cons, appendContext_eq_lastN _ _ _ _ _ hctx]
      rw [ih _ (lastN_length_le _ _), lastN_append_lastN]
      simp [List.append_assoc]

theorem getContextText_of_le (maxW : ℕ) (ctx : List Word) (h : ctx.length ≤ maxW) :
    getContextText maxW ctx = joinSpace ctx := by
  rw [getContextText]
  by_cases hc : ctx = []
  · rw [if_pos hc, hc]; rfl
  · rw [if_neg hc, jsSliceLast]
    by_cases hm : maxW = 0
    · rw [if_pos hm]
    · rw [if_neg hm, show ctx.length - maxW = 0 by omega, List.drop_zero]

/-- C8: after any sequence of context appends, the rolling context holds at
most `maxContextWords` words — exactly the most recent words in FIFO order —
and the composed prompt is the trimmed base ASR prompt and the joined
context window, space-separated with empty parts omitted. -/
theorem contextWindow_spec (isSpace isWord : Char → Bool) (maxW : ℕ)
    (texts : List Word) (asrPrompt : Option Word) :
    (runContext isSpace isWord maxW texts).length ≤ maxW ∧
    runContext isSpace isWord maxW texts =
      lastN maxW ((texts.map (tokenizeContext isSpace isWord)).flatten) ∧
    composePromptWithContext isSpace asrPrompt maxW (runContext isSpace isWord maxW texts) =
      joinSpace ((((asrPrompt.map (trimWs isSpace)).toList)
          ++ [joinSpace (lastN maxW ((texts.map (tokenizeContext isSpace isWord)).flatten))]).filter
        fun t => decide (0 < t.length)) := by
  have hrun := runContext_eq_lastN isSpace isWord maxW texts
  have hlen : (runContext isSpace isWord maxW texts).length ≤ maxW := by
    rw [hrun]; exact lastN_length_le _ _
  refine ⟨hlen, hrun, ?_⟩
  rw [composePromptWithContext, getContextText_of_le _ _ hlen, hrun]

theorem stripEnds_cons_nonword (isWord : Char → Bool) (c : Char) (t : Word)
    (hc : isWord c = false) : stripEnds isWord (c :: t) = stripEnds isWord t := by
  rw [stripEnds, stripEnds, List.dropWhile_cons]
  simp [hc]

theorem wsSplit_ne_nil (isSpace : Char → Bool) (text : Word) :
    wsSplit isSpace text ≠ [] := by
  cases text with
  | nil => simp [wsSplit]
  | cons c rest =>
      rw [wsSplit]
      split <;> simp

theorem tokenizeContext_nonword (isSpace isWord : Char → Bool) (text : Word)
    (h : ∀ c ∈ text, isWord c = false) :
    tokenizeContext isSpace isWord text = [] := by
  induction text with
  | nil => rfl
  | cons c rest ih =>
      have hc : isWord c = false := h c (by simp)
      have hrest : ∀ c ∈ rest, isWord c = false := fun x hx => h x (by simp [hx])
      rw [tokenizeContext, wsSplit]
      by_cases hs : isSpace c
      · rw [if_pos hs]
        rw [List.map_cons, List.filter_cons, if_neg (by simp [stripEnds])]
        exact ih hrest
      · rw [if_neg hs]
        obtain ⟨hd, tl, hr⟩ := List.exists_cons_of_ne_nil (wsSplit_ne_nil isSpace rest)
        rw [hr]
        simp only [List.headI_cons, List.tail_cons]
        rw [List.map_cons, stripEnds_cons_nonword isWord c hd hc, ← List.map_cons]
        have h2 := ih hrest
        rw [tokenizeContext, hr] at h2
        exact h2

theorem appendContext_nonword (isSpace isWord : Char → Bool) (maxW : ℕ)
    (ctx : List Word) (text : Word) (h : ∀ c ∈ text, isWord c = false) :
    appendContext isSpace isWord maxW ctx text = ctx := by
  rw [appendContext]
  by_cases htext : text = []
  · rw [if_pos htext]
  · rw [if_neg htext, if_pos (tokenizeContext_nonword isSpace isWord text h)]

theorem stripEnds_ends_word (isWord : Char → Bool) (p : Word)
    (hne : stripEnds isWord p ≠ []) :
    (∀ c, (stripEnds isWord p).head? = some c → isWord c = true) ∧
    (∀ c, (stripEnds isWord p).getLast? = some c → isWord c = true) := by
  constructor
  · intro c hc
    rw [stripEnds, List.head?_reverse] at hc
    have hvne : (p.dropWhile fun x => !isWord x).reverse.dropWhile (fun x => !isWord x) ≠ [] := by
      intro h0
      rw [stripEnds, h0] at hne
      exact hne rfl
    obtain ⟨t, ht⟩ :=
      List.dropWhile_suffix (l := (p.dropWhile fun x => !isWord x).reverse)
        (fun x => !isWord x)
    have hlast := List.getLast?_append_of_ne_nil t hvne
    rw [ht] at hlast
    rw [← hlast, List.getLast?_reverse] at hc
    have hune : (p.dropWhile fun x => !isWord x) ≠ [] := by
      intro h0
      rw [h0] at hc
      simp at hc
    rw [List.head?_eq_head hune] at hc
    have hw := List.head_dropWhile_not (fun x => !isWord x) p hune
    have hc' : (p.dropWhile fun x => !isWord x).head hune = c := Option.some.inj hc
    rw [← hc']
    simpa using hw
  · intro c hc
    rw [stripEnds, List.getLast?_reverse] at hc
    have hvne : (p.dropWhile fun x => !isWord x).reverse.dropWhile (fun x => !isWord x) ≠ [] := by
      intro h0
      rw [h0] at hc
      simp at hc
    rw [List.head?_eq_head hvne] at hc
    have hw :=
      List.head_dropWhile_not (fun x => !isWord x)
        (p.dropWhile fun x => !isWord x).reverse hvne
    have hc' :
        ((p.dropWhile fun x => !isWord x).reverse.dropWhile fun x => !isWord x).head hvne = c :=
      Option.some.inj hc
    rw [← hc']
    simpa using hw

theorem mem_tokenizeContext {isSpace isWord : Char → Bool} {text v : Word}
    (hv : v ∈ tokenizeContext isSpace isWord text) :
    (∃ p, v = stripEnds isWord p) ∧ v ≠ [] := by
  rw [tokenizeContext] at hv
  have h1 := List.mem_filter.mp hv
  obtain ⟨p, _, hp⟩ := List.mem_map.mp h1.1
  refine ⟨⟨p, hp.symm⟩, ?_⟩
  have h2 := h1.2
  simp only [decide_eq_true_eq] at h2
  exact List.length_pos.mp h2

/-- C10: text fed into the rolling context is whitespace-split and each
token stripped of leading/trailing non-word (non letter/digit) characters;
empty tokens are dropped, so all-punctuation or all-whitespace input leaves
the context unchanged, and every stored context word starts and ends with a
word character. -/
theorem contextTokenize_spec (isSpace isWord : Char → Bool) (maxW : ℕ) :
    (∀ (ctx : List Word) (text : Word), (∀ c ∈ text, isWord c = false) →
        appendContext isSpace isWord maxW ctx text = ctx) ∧
    (∀ (texts : List Word), ∀ v ∈ runContext isSpace isWord maxW texts,
        v ≠ [] ∧ (∀ c, v.head? = some c → isWord c = true) ∧
          (∀ c, v.getLast? = some c → isWord c = true)) := by
  refine ⟨appendContext_nonword isSpace isWord maxW, ?_⟩
  intro texts v hv
  rw [runContext_eq_lastN, lastN] at hv
  have hv2 : v ∈ (texts.map (tokenizeContext isSpace isWord)).flatten :=
    List.drop_subset _ _ hv
  obtain ⟨l, hl, hvl⟩ := List.mem_flatten.mp hv2
  obtain ⟨text, _, htext⟩ := List.mem_map.mp hl
  rw [← htext] at hvl
  obtain ⟨⟨p, hp⟩, hne⟩ := mem_tokenizeContext hvl
  subst hp
  exact ⟨hne, (stripEnds_ends_word isWord p hne).1, (stripEnds_ends_word isWord p hne).2⟩

/-- Witness for C10: punctuation-and-whitespace-only input leaves the
context unchanged, and the word stored for input `a!b!` is `a!b` — interior
punctuation kept, ends stripped to word characters. -/
theorem contextTokenize_spec_witness :
    appendContext (fun c => c.isWhitespace) (fun c => c.isAlphanum) 40
        [['h', 'i']] ['!', ' ', '?'] = [['h', 'i']] ∧
    ((['a', '!', 'b'] : Word) ≠ [] ∧
      (∀ c, (['a', '!', 'b'] : Word).head? = some c → (fun c => Char.isAlphanum c) c = true) ∧
      (∀ c, (['a', '!', 'b'] : Word).getLast? = some c → (fun c => Char.isAlphanum c) c = true)) :=
  ⟨(contextTokenize_spec (fun c => c.isWhitespace) (fun c => c.isAlphanum) 40).1
      [['h', 'i']] ['!', ' ', '?'] (by decide),
   (contextTokenize_spec (fun c => c.isWhitespace) (fun c => c.isAlphanum) 40).2
      [['a', '!', 'b', '!']] ['a', '!', 'b'] (by decide)⟩

/-! ## Per-user voice segmenter (`voiceReceiver.ts` `PerUserVoiceSegmenter`)

One participant's state machine (the segmenter iterates independent per-user
states).  Wall-clock `nowEpoch()` is an input to each flush.  The per-frame
classifier's two external ingredients are oracles in the configuration:
`energy` is the outcome of the floating-point test
`rmsDbFs(frame) >= vadDbThreshold` (refined over ℝ separately for C7), and
`vadStream` is the stream of verdicts of the stateful native WebRTC VAD,
consumed one verdict per consultation. -/

/-- `node-vad` events as re-exported by the `WebRtcVad` wrapper (`vad.ts`). -/
inductive VADEvent where
  | ERROR
  | SILENCE
  | VOICE
  | NOISE
deriving DecidableEq

/-- Resolved segmenter options (`SegmenterOptions` with `??` defaults
applied by `_getSegParams`) plus the two classifier oracles: `energy` is the
outcome of the stage-1 test `rmsDbFs(frame) >= vadDbThreshold`, and
`vadStream k` is the verdict of the per-user native WebRTC VAD on its
`k`-th consultation (`WebRtcVad.isVoice` is `processFrame == VOICE`). -/
structure SegConfig where
  energy : List ℤ → Bool
  vadStream : ℕ → VADEvent
  vadFrameMs : ℚ
  silenceGapMs : ℚ
  minSegmentMs : ℚ
  maxSegmentMs : ℚ

/-- `VoiceSegment` (constant `userId`/`pcmFormat` omitted). -/
structure VoiceSegment where
  index : ℕ
  startedTs : ℚ
  captureTs : ℚ
  durationMs : ℤ
  pcm16 : List ℤ
deriving DecidableEq

/-- `UserBuf`: per-user segmenter state.  `carry = []` models an undefined
carry; `vadCalls` counts consultations of the per-user WebRTC VAD (the
position in `vadStream`). -/
structure UserBuf where
  frames : List (List ℤ)
  totalInSeg : ℕ
  nextIndex : ℕ
  startedTs : Option ℚ
  inSpeech : Bool
  lastActiveSamples : ℕ
  silenceSamples : ℕ
  pendingSilence : List (List ℤ)
  pendingSilenceSamples : ℕ
  carry : List ℤ
  inQueue : List (List ℤ)
  vadCalls : ℕ
deriving DecidableEq

/-- The fresh state created on a user's first `pushStereo48`. -/
def initBuf : UserBuf := ⟨[], 0, 0, none, false, 0, 0, [], 0, [], [], 0⟩

/-- `_getSegParams().vadFrameSamples = max(1, round(16000 * vadFrameMs / 1000))`. -/
def vadFrameSamples (cfg : SegConfig) : ℕ :=
  (max 1 (jsRound ((16000 : ℚ) * cfg.vadFrameMs / 1000))).toNat

/-- `pushStereo48`: downmix to mono, resample 48 kHz → 16 kHz, enqueue. -/
def pushStereo48 (st : UserBuf) (pcmStereo48 : List ℤ) : UserBuf :=
  let mono48 := downmixToMono pcmStereo48
  let monoTgt := resampleLinear mono48 48000 16000
  { st with inQueue := st.inQueue ++ [monoTgt] }

/-- `_buildWorkBuffer`: concatenate carry and queued chunks; `none` when
empty, else the work buffer with queue and carry cleared. -/
def buildWorkBuffer (st : UserBuf) : Option (List ℤ) × UserBuf :=
  let work := st.carry ++ st.inQueue.flatten
  if work.length = 0 then (none, st)
  else (some work, { st with inQueue := [], carry := [] })

/-- `_startSegment`. -/
def startSegment (now : ℚ) (st : UserBuf) : UserBuf :=
  { st with inSpeech := true, startedTs := some now, frames := [], totalInSeg := 0,
            lastActiveSamples := 0, silenceSamples := 0, pendingSilence := [],
            pendingSilenceSamples := 0 }

/-- `_appendActiveFrame`. -/
def appendActiveFrame (st : UserBuf) (frame : List ℤ) : UserBuf :=
  { st with frames := st.frames ++ [frame], totalInSeg := st.totalInSeg + frame.length,
            lastActiveSamples := st.totalInSeg + frame.length, silenceSamples := 0 }

/-- Lines 121–130 of `flushAll`: the two-stage frame classification.  The
energy prefilter runs first; only when it passes is the per-user WebRTC VAD
consulted (consuming the next verdict of the stream). -/
def classifyFrame (cfg : SegConfig) (st : UserBuf) (frame : List ℤ) : Bool × UserBuf :=
  if cfg.energy frame then
    (decide (cfg.vadStream st.vadCalls = VADEvent.VOICE),
     { st with vadCalls := st.vadCalls + 1 })
  else (false, st)

/-- The stitch-back block: when buffered in-segment silence exists, append
it to the segment frames and clear the silence counters. -/
def stitchPending (st : UserBuf) : UserBuf :=
  if st.pendingSilenceSamples ≠ 0 ∧ st.pendingSilence ≠ [] then
    let add := (st.pendingSilence.map List.length).sum
    { st with frames := st.frames ++ st.pendingSilence,
              totalInSeg := st.totalInSeg + add,
              lastActiveSamples := st.totalInSeg + add,
              pendingSilence := [], pendingSilenceSamples := 0, silenceSamples := 0 }
  else st

/-- Lines 132–164 of `flushAll`: the per-frame segmentation step. -/
def segStep (cfg : SegConfig) (now : ℚ) (st0 : UserBuf) (frame : List ℤ) : UserBuf :=
  let res := classifyFrame cfg st0 frame
  let active := res.1
  let st := res.2
  if st.inSpeech = false then
    if active then appendActiveFrame (startSegment now st) frame else st
  else if active then
    appendActiveFrame (stitchPending st) frame
  else
    { st with pendingSilence := st.pendingSilence ++ [frame],
              pendingSilenceSamples := st.pendingSilenceSamples + frame.length,
              silenceSamples := st.silenceSamples + frame.length }

/-- The `while (offset + F <= work.length)` loop of `flushAll`: consume the
work buffer in whole frames of `F` samples; the remainder is the new carry. -/
def processFrames (cfg : SegConfig) (F : ℕ) (now : ℚ) (st : UserBuf) (work : List ℤ) :
    UserBuf × List ℤ :=
  if h : 0 < F ∧ F ≤ work.length then
    processFrames cfg F now (segStep cfg now st (work.take F)) (work.drop F)
  else (st, work)
termination_by work.length
decreasing_by simp only [List.length_drop]; omega

/-- `_resetSpeechState` (retains `carry`, `nextIndex`, `inQueue`, the VAD). -/
def resetSpeechState (st : UserBuf) : UserBuf :=
  { st with frames := [], totalInSeg := 0, inSpeech := false, startedTs := none,
            lastActiveSamples := 0, silenceSamples := 0, pendingSilence := [],
            pendingSilenceSamples := 0 }

/-- `concatInt16Trimmed`: the first `keep` samples of the chunks, in a
zero-initialized buffer of length `keep`. -/
def concatInt16Trimmed (chunks : List (List ℤ)) (keep : ℕ) : List ℤ :=
  chunks.flatten.take keep ++ List.replicate (keep - chunks.flatten.length) 0

/-- JS truthiness of the guard
`!state.inSpeech || !state.startedTs || state.totalInSeg <= 0`
(an epoch of exactly 0 is falsy, faithfully modelled). -/
def segLive (st : UserBuf) : Bool :=
  st.inSpeech && decide (st.startedTs.getD 0 ≠ 0) && decide (0 < st.totalInSeg)

/-- `_finalizeSegment`: trim to the last active sample and emit, or reset
without emitting.  (`Math.max(0, ·)` is vacuous over ℕ.) -/
def finalizeSegment (st : UserBuf) : UserBuf × Option VoiceSegment :=
  if segLive st = false then (resetSpeechState st, none)
  else
    let keep := min st.lastActiveSamples st.totalInSeg
    if keep = 0 then (resetSpeechState st, none)
    else
      let durationMs := jsRound ((keep : ℚ) * 1000 / 16000)
      let ts := st.startedTs.getD 0
      ({ resetSpeechState st with nextIndex := st.nextIndex + 1 },
       some ⟨st.nextIndex, ts, ts + (keep : ℚ) / 16000, durationMs,
         concatInt16Trimmed st.frames keep⟩)

/-- `_maybeFinalizePost`: minimum-duration gate, then the silence-gap rule,
then the max-length rule. -/
def maybeFinalizePost (cfg : SegConfig) (now : ℚ) (processed : Bool) (st : UserBuf) :
    UserBuf × Option VoiceSegment :=
  if segLive st = false then (st, none)
  else
    let silentMs : ℚ :=
      if processed then (st.silenceSamples : ℚ) * 1000 / 16000
      else max 0 ((now - (st.startedTs.getD 0 + (st.lastActiveSamples : ℚ) / 16000)) * 1000)
    let durMs : ℚ := (st.totalInSeg : ℚ) * 1000 / 16000
    if durMs < cfg.minSegmentMs then (st, none)
    else if cfg.silenceGapMs ≤ silentMs then finalizeSegment st
    else if cfg.maxSegmentMs ≤ durMs then finalizeSegment st
    else (st, none)

/-- `flushAll` for one user: build the work buffer, process whole frames,
save the carry, then decide finalization. -/
def flushAll (cfg : SegConfig) (now : ℚ) (st : UserBuf) : UserBuf × Option VoiceSegment :=
  match buildWorkBuffer st with
  | (none, st1) => maybeFinalizePost cfg now false st1
  | (some work, st1) =>
      let pr := processFrames cfg (vadFrameSamples cfg) now st1 work
      let processed := decide (vadFrameSamples cfg ≤ work.length)
      maybeFinalizePost cfg now processed { pr.1 with carry := pr.2 }

/-- One operation on the segmenter: a `pushStereo48` of interleaved stereo
48 kHz samples, or a `flushAll` at wall-clock time `now`. -/
inductive SegOp where
  | push (pcm : List ℤ)
  | flush (now : ℚ)
deriving DecidableEq

def segOpStep (cfg : SegConfig) : UserBuf × List VoiceSegment → SegOp → UserBuf × List VoiceSegment
  | (st, segs), .push pcm => (pushStereo48 st pcm, segs)
  | (st, segs), .flush now =>
      let r := flushAll cfg now st
      (r.1, segs ++ r.2.toList)

/-- A run of the segmenter over a sequence of operations, collecting the
segments passed to the `send` callback in emission order. -/
def runSeg (cfg : SegConfig) (ops : List SegOp) : UserBuf × List VoiceSegment :=
  ops.foldl (segOpStep cfg) (initBuf, [])

theorem one_le_vadFrameSamples (cfg : SegConfig) : 1 ≤ vadFrameSamples cfg := by
  rw [vadFrameSamples]
  omega

/-- The reachability invariant of a user's segmenter state: the trim marker
always equals the accumulated total (the buffered trailing silence is kept
out of `frames`), the sample counters match the buffered data, idle states
are fully reset, and an open segment's frame list ends with a full-length
frame that was classified active — it passed the energy stage AND the VAD
verdict `k` consumed when it was classified (some already-made consultation,
`k < vadCalls`) was `VOICE`. -/
def Inv (cfg : SegConfig) (st : UserBuf) : Prop :=
  st.lastActiveSamples = st.totalInSeg ∧
  st.totalInSeg = st.frames.flatten.length ∧
  st.pendingSilenceSamples = st.pendingSilence.flatten.length ∧
  (st.inSpeech = false →
    st.frames = [] ∧ st.totalInSeg = 0 ∧ st.startedTs = none ∧
      st.pendingSilence = [] ∧ st.pendingSilenceSamples = 0 ∧ st.silenceSamples = 0) ∧
  (st.inSpeech = true →
    ∃ f k, st.frames.getLast? = some f ∧ f.length = vadFrameSamples cfg ∧
      k < st.vadCalls ∧ cfg.energy f = true ∧ cfg.vadStream k = VADEvent.VOICE)

theorem Inv_init (cfg : SegConfig) : Inv cfg initBuf := by
  refine ⟨rfl, rfl, rfl, fun _ => ⟨rfl, rfl, rfl, rfl, rfl, rfl⟩, fun h => ?_⟩
  simp [initBuf] at h

/-- One `segStep` preserves the invariant, never touches `nextIndex`,
`carry` or `inQueue`, grows the segment-plus-pending total by at most one
frame, and keeps an open segment open with its start time. -/
theorem segStep_spec (cfg : SegConfig) (now : ℚ) (st : UserBuf) (frame : List ℤ)
    (hInv : Inv cfg st) (hlen : frame.length = vadFrameSamples cfg) :
    Inv cfg (segStep cfg now st frame) ∧
    (segStep cfg now st frame).nextIndex = st.nextIndex ∧
    (segStep cfg now st frame).carry = st.carry ∧
    (segStep cfg now st frame).inQueue = st.inQueue ∧
    (segStep cfg now st frame).totalInSeg + (segStep cfg now st frame).pendingSilenceSamples
      ≤ st.totalInSeg + st.pendingSilenceSamples + frame.length ∧
    (st.inSpeech = true → (segStep cfg now st frame).inSpeech = true ∧
      (segStep cfg now st frame).startedTs = st.startedTs) := by
  obtain ⟨hLA, hTot, hPend, hIdle, hOpen⟩ := hInv
  have hsum : (st.pendingSilence.map List.length).sum
      = st.pendingSilence.flatten.length := (List.length_flatten _).symm
  cases hE : cfg.energy frame with
  | false =>
      by_cases hS : st.inSpeech = false
      · simp only [segStep, classifyFrame, hE, Bool.false_eq_true, if_false, hS, if_true]
        exact ⟨⟨hLA, hTot, hPend, hIdle, hOpen⟩, by trivial, by trivial, by trivial,
          by omega, by simp [hS]⟩
      · simp only [segStep, classifyFrame, hE, Bool.false_eq_true, Bool.true_eq_false,
          if_false, hS]
        have hS' : st.inSpeech = true := by
          cases h : st.inSpeech
          · exact absurd h hS
          · rfl
        refine ⟨⟨by simpa using hLA, by simpa using hTot, ?_, by simp [hS'], ?_⟩,
          by trivial, by trivial, by trivial,
          by first
            | omega
            | (dsimp only; omega)
            | (simp <;> omega),
          fun _ => ⟨by simpa using hS', by trivial⟩⟩
        · first
            | (simp only [List.flatten_append, List.flatten_cons, List.flatten_nil,
                  List.length_append, List.append_nil]
               omega)
            | (dsimp only
               simp only [List.flatten_append, List.flatten_cons, List.flatten_nil,
                  List.length_append, List.append_nil]
               omega)
        · intro _
          obtain ⟨f, k, hf, hl, hk, he, hv⟩ := hOpen hS'
          exact ⟨f, k, by simpa using hf, hl, by exact hk, he, hv⟩
  | true =>
      by_cases hV : cfg.vadStream st.vadCalls = VADEvent.VOICE
      · -- active frame
        by_cases hS : st.inSpeech = false
        · simp only [segStep, classifyFrame, hE, if_true, hV, decide_eq_true_eq, hS]
          simp only [startSegment, appendActiveFrame]
          refine ⟨⟨by trivial, by simp, by trivial, by simp,
              fun _ => ⟨frame, st.vadCalls, by simp, hlen,
                by first | exact Nat.lt_succ_self _ | (dsimp only; omega) | simp, hE, hV⟩⟩,
            by trivial, by trivial, by trivial, by simp <;> omega, by simp [hS]⟩
        · have hS' : st.inSpeech = true := by
            cases h : st.inSpeech
            · exact absurd h hS
            · rfl
          simp only [segStep, classifyFrame, hE, if_true, hV, decide_eq_true_eq, hS']
          simp only [if_neg (by simp : ¬ (true = false)), if_true]
          rw [stitchPending]
          by_cases hP : st.pendingSilenceSamples ≠ 0 ∧ st.pendingSilence ≠ []
          · rw [if_pos (by simpa using hP)]
            simp only [appendActiveFrame]
            refine ⟨⟨by simp, ?_, by simp, by simp [hS'],
                fun _ => ⟨frame, st.vadCalls, by simp, hlen,
                  by first | exact Nat.lt_succ_self _ | (dsimp only; omega) | simp, hE, hV⟩⟩,
              by trivial, by trivial, by trivial, ?_, fun _ => ⟨by simp [hS'], by simp⟩⟩
            · simp only [List.append_assoc, List.flatten_append, List.flatten_cons,
                List.flatten_nil, List.length_append, List.length_nil, List.append_nil]
              omega
            · dsimp only
              omega
          · rw [if_neg (by simpa using hP)]
            simp only [appendActiveFrame]
            refine ⟨⟨by simp, ?_, by exact hPend, by simp [hS'],
                fun _ => ⟨frame, st.vadCalls, by simp, hlen,
                  by first | exact Nat.lt_succ_self _ | (dsimp only; omega) | simp, hE, hV⟩⟩,
              by trivial, by trivial, by trivial,
              by first
                | omega
                | (dsimp only; omega)
                | (simp <;> omega),
              fun _ => ⟨by simp [hS'], by simp⟩⟩
            first
              | (simp only [List.flatten_append, List.flatten_cons, List.flatten_nil,
                    List.length_append, List.append_nil]
                 omega)
              | (dsimp only
                 simp only [List.flatten_append, List.flatten_cons, List.flatten_nil,
                    List.length_append, List.append_nil]
                 omega)
      · -- energy passed but VAD says not VOICE: inactive
        have hVd : decide (cfg.vadStream st.vadCalls = VADEvent.VOICE) = false := by
          simpa using hV
        by_cases hS : st.inSpeech = false
        · simp only [segStep, classifyFrame, hE, if_true, hVd, Bool.false_eq_true, if_false, hS]
          refine ⟨⟨by simpa using hLA, by simpa using hTot, by simpa using hPend,
              by simp [hS, hIdle], ?_⟩, by trivial, by trivial, by trivial,
            by simp <;> omega, by simp [hS]⟩
          intro h
          exact absurd h (by simp)
        · have hS' : st.inSpeech = true := by
            cases h : st.inSpeech
            · exact absurd h hS
            · rfl
          simp only [segStep, classifyFrame, hE, if_true, hVd, Bool.false_eq_true, if_false, hS']
          simp only [if_neg (by simp : ¬ (true = false))]
          refine ⟨⟨by simpa using hLA, by simpa using hTot, ?_, by simp [hS'], ?_⟩,
            by trivial, by trivial, by trivial,
            by first
              | omega
              | (dsimp only; omega)
              | (simp <;> omega),
            fun _ => ⟨by simpa using hS', by trivial⟩⟩
          · first
              | (simp only [List.flatten_append, List.flatten_cons, List.flatten_nil,
                    List.length_append, List.append_nil]
                 omega)
              | (dsimp only
                 simp only [List.flatten_append, List.flatten_cons, List.flatten_nil,
                    List.length_append, List.append_nil]
                 omega)
          · intro _
            obtain ⟨f, k, hf, hl, hk, he, hv⟩ := hOpen hS'
            exact ⟨f, k, by simpa using hf, hl, by exact Nat.lt_succ_of_lt hk, he, hv⟩

/-- The inter-flush duration bound: an open, live segment is strictly below
the length cap (the cap check at the end of each flush pass guarantees it). -/
def DurInv (cfg : SegConfig) (st : UserBuf) : Prop :=
  st.inSpeech = true → st.startedTs.getD 0 ≠ 0 →
    (st.totalInSeg : ℚ) * 1000 / 16000 < cfg.maxSegmentMs

/-- What every emitted segment satisfies: nonempty PCM, the capture-time and
duration formulas over the trimmed sample count, the minimum-duration gate,
and a final full-length frame that was classified active: it passed the
energy stage AND the VAD verdict `k` consumed for it was `VOICE`. -/
def segWellFormed (cfg : SegConfig) (s : VoiceSegment) : Prop :=
  s.pcm16 ≠ [] ∧
  s.captureTs = s.startedTs + (s.pcm16.length : ℚ) / 16000 ∧
  s.durationMs = jsRound ((s.pcm16.length : ℚ) * 1000 / 16000) ∧
  cfg.minSegmentMs ≤ (s.pcm16.length : ℚ) * 1000 / 16000 ∧
  ∃ rest f k, s.pcm16 = rest ++ f ∧ f.length = vadFrameSamples cfg ∧
    cfg.energy f = true ∧ cfg.vadStream k = VADEvent.VOICE

theorem Inv_resetSpeechState (cfg : SegConfig) (st : UserBuf) :
    Inv cfg (resetSpeechState st) := by
  refine ⟨rfl, rfl, rfl, fun _ => ⟨rfl, rfl, rfl, rfl, rfl, rfl⟩, fun h => ?_⟩
  simp [resetSpeechState] at h

/-- `processFrames` preserves the invariant, never touches `nextIndex` or
`inQueue`, grows the open total (plus pending silence) by at most the
processed sample count, and keeps an open segment open with its start. -/
theorem processFrames_aux (cfg : SegConfig) (now : ℚ) :
    ∀ (n : ℕ) (work : List ℤ) (st : UserBuf), work.length ≤ n → Inv cfg st →
      Inv cfg (processFrames cfg (vadFrameSamples cfg) now st work).1 ∧
      (processFrames cfg (vadFrameSamples cfg) now st work).1.nextIndex = st.nextIndex ∧
      (processFrames cfg (vadFrameSamples cfg) now st work).1.inQueue = st.inQueue ∧
      (processFrames cfg (vadFrameSamples cfg) now st work).1.totalInSeg
          + (processFrames cfg (vadFrameSamples cfg) now st work).1.pendingSilenceSamples
        ≤ st.totalInSeg + st.pendingSilenceSamples + work.length ∧
      (st.inSpeech = true →
        (processFrames cfg (vadFrameSamples cfg) now st work).1.inSpeech = true ∧
        (processFrames cfg (vadFrameSamples cfg) now st work).1.startedTs = st.startedTs) := by
  intro n
  induction n with
  | zero =>
      intro work st hn hInv
      have hF := one_le_vadFrameSamples cfg
      unfold processFrames
      rw [dif_neg (by omega : ¬(0 < vadFrameSamples cfg ∧ vadFrameSamples cfg ≤ work.length))]
      exact ⟨hInv, rfl, rfl, Nat.le_add_right _ _, fun h => ⟨h, rfl⟩⟩
  | succ n ih =>
      intro work st hn hInv
      have hF := one_le_vadFrameSamples cfg
      unfold processFrames
      by_cases hc : 0 < vadFrameSamples cfg ∧ vadFrameSamples cfg ≤ work.length
      · rw [dif_pos hc]
        have hlen : (work.take (vadFrameSamples cfg)).length = vadFrameSamples cfg := by
          simp only [List.length_take]
          omega
        have hstep := segStep_spec cfg now st (work.take (vadFrameSamples cfg)) hInv hlen
        have hrec := ih (work.drop (vadFrameSamples cfg))
          (segStep cfg now st (work.take (vadFrameSamples cfg)))
          (by simp only [List.length_drop]; omega) hstep.1
        refine ⟨hrec.1, hrec.2.1.trans hstep.2.1, hrec.2.2.1.trans hstep.2.2.2.1, ?_, ?_⟩
        · have g1 := hrec.2.2.2.1
          have g2 := hstep.2.2.2.2.1
          have hd : (work.drop (vadFrameSamples cfg)).length
              = work.length - vadFrameSamples cfg := by
            simp [List.length_drop]
          have ht : (work.take (vadFrameSamples cfg)).length = vadFrameSamples cfg := hlen
          omega
        · intro hsp
          obtain ⟨hsp1, hts1⟩ := hstep.2.2.2.2.2 hsp
          obtain ⟨hsp2, hts2⟩ := hrec.2.2.2.2 hsp1
          exact ⟨hsp2, hts2.trans hts1⟩
      · rw [dif_neg hc]
        exact ⟨hInv, rfl, rfl, Nat.le_add_right _ _, fun h => ⟨h, rfl⟩⟩

theorem processFrames_spec (cfg : SegConfig) (now : ℚ) (work : List ℤ) (st : UserBuf)
    (hInv : Inv cfg st) :
    Inv cfg (processFrames cfg (vadFrameSamples cfg) now st work).1 ∧
    (processFrames cfg (vadFrameSamples cfg) now st work).1.nextIndex = st.nextIndex ∧
    (processFrames cfg (vadFrameSamples cfg) now st work).1.inQueue = st.inQueue ∧
    (processFrames cfg (vadFrameSamples cfg) now st work).1.totalInSeg
        + (processFrames cfg (vadFrameSamples cfg) now st work).1.pendingSilenceSamples
      ≤ st.totalInSeg + st.pendingSilenceSamples + work.length ∧
    (st.inSpeech = true →
      (processFrames cfg (vadFrameSamples cfg) now st work).1.inSpeech = true ∧
      (processFrames cfg (vadFrameSamples cfg) now st work).1.startedTs = st.startedTs) :=
  processFrames_aux cfg now work.length work st (le_refl _) hInv

theorem segLive_true_iff (st : UserBuf) :
    segLive st = true ↔
      st.inSpeech = true ∧ st.startedTs.getD 0 ≠ 0 ∧ 0 < st.totalInSeg := by
  rw [segLive]
  simp [Bool.and_eq_true, and_assoc]

theorem flatten_getLast {L : List (List ℤ)} {f : List ℤ} (h : L.getLast? = some f) :
    L.flatten = L.dropLast.flatten ++ f := by
  have hne : L ≠ [] := by
    intro h0
    rw [h0] at h
    simp at h
  have hL : L.dropLast ++ [L.getLast hne] = L := List.dropLast_append_getLast hne
  have hf : L.getLast hne = f := by
    rw [List.getLast?_eq_getLast L hne] at h
    exact Option.some.inj h
  conv_lhs => rw [← hL]
  rw [List.flatten_append, hf]
  simp

/-- `_finalizeSegment` always resets all speech state and retains `carry`,
`inQueue` and the VAD; `nextIndex` advances exactly by the number of
emitted segments (one or zero). -/
theorem finalizeSegment_reset (st : UserBuf) :
    (finalizeSegment st).1.inSpeech = false ∧ (finalizeSegment st).1.frames = [] ∧
    (finalizeSegment st).1.totalInSeg = 0 ∧ (finalizeSegment st).1.startedTs = none ∧
    (finalizeSegment st).1.lastActiveSamples = 0 ∧ (finalizeSegment st).1.silenceSamples = 0 ∧
    (finalizeSegment st).1.pendingSilence = [] ∧
    (finalizeSegment st).1.pendingSilenceSamples = 0 ∧
    (finalizeSegment st).1.carry = st.carry ∧ (finalizeSegment st).1.inQueue = st.inQueue ∧
    (finalizeSegment st).1.nextIndex = st.nextIndex + (finalizeSegment st).2.toList.length := by
  simp only [finalizeSegment]
  by_cases h1 : segLive st = false
  · rw [if_pos h1]
    exact ⟨rfl, rfl, rfl, rfl, rfl, rfl, rfl, rfl, rfl, rfl, rfl⟩
  · rw [if_neg h1]
    by_cases h2 : min st.lastActiveSamples st.totalInSeg = 0
    · rw [if_pos h2]
      exact ⟨rfl, rfl, rfl, rfl, rfl, rfl, rfl, rfl, rfl, rfl, rfl⟩
    · rw [if_neg h2]
      exact ⟨rfl, rfl, rfl, rfl, rfl, rfl, rfl, rfl, rfl, rfl, rfl⟩

theorem Inv_finalizeSegment (cfg : SegConfig) (st : UserBuf) :
    Inv cfg (finalizeSegment st).1 := by
  simp only [finalizeSegment]
  by_cases h1 : segLive st = false
  · rw [if_pos h1]
    exact Inv_resetSpeechState cfg st
  · rw [if_neg h1]
    by_cases h2 : min st.lastActiveSamples st.totalInSeg = 0
    · rw [if_pos h2]
      exact Inv_resetSpeechState cfg st
    · rw [if_neg h2]
      exact Inv_resetSpeechState cfg st

/-- A live, invariant-respecting state finalizes to exactly one segment:
the trimmed PCM is the accumulated frames themselves (`lastActiveSamples =
totalInSeg`, so trailing pending silence is never included). -/
theorem finalizeSegment_emit (cfg : SegConfig) (st : UserBuf) (hInv : Inv cfg st)
    (hLive : segLive st = true) :
    (finalizeSegment st).2 = some ⟨st.nextIndex, st.startedTs.getD 0,
        st.startedTs.getD 0 + (st.totalInSeg : ℚ) / 16000,
        jsRound ((st.totalInSeg : ℚ) * 1000 / 16000), st.frames.flatten⟩ := by
  obtain ⟨hLA, hTot, hPend, hIdle, hOpen⟩ := hInv
  obtain ⟨hsp, hts, hT⟩ := (segLive_true_iff st).mp hLive
  have hdata : concatInt16Trimmed st.frames st.totalInSeg = st.frames.flatten := by
    rw [concatInt16Trimmed, hTot, List.take_length]
    simp
  simp only [finalizeSegment]
  rw [if_neg (by rw [hLive]; simp), hLA, min_self, if_neg (by omega)]
  rw [hdata]

theorem maybeFinalizePost_spec (cfg : SegConfig) (now : ℚ) (processed : Bool) (st : UserBuf)
    (hInv : Inv cfg st) :
    Inv cfg (maybeFinalizePost cfg now processed st).1 ∧
    (maybeFinalizePost cfg now processed st).1.carry = st.carry ∧
    (maybeFinalizePost cfg now processed st).1.inQueue = st.inQueue ∧
    (maybeFinalizePost cfg now processed st).1.nextIndex
      = st.nextIndex + (maybeFinalizePost cfg now processed st).2.toList.length ∧
    ((maybeFinalizePost cfg now processed st).2.toList ≠ [] → segLive st = true) ∧
    ∀ s ∈ (maybeFinalizePost cfg now processed st).2.toList,
      s.index = st.nextIndex ∧ s.pcm16.length = st.totalInSeg ∧ segWellFormed cfg s := by
  simp only [maybeFinalizePost]
  by_cases h1 : segLive st = false
  · rw [if_pos h1]
    exact ⟨hInv, rfl, rfl, by simp, by simp, by simp⟩
  · rw [if_neg h1]
    have hLive : segLive st = true := by
      cases h : segLive st
      · exact absurd h h1
      · rfl
    obtain ⟨hsp, hts, hT⟩ := (segLive_true_iff st).mp hLive
    by_cases hmin : (st.totalInSeg : ℚ) * 1000 / 16000 < cfg.minSegmentMs
    · rw [if_pos hmin]
      exact ⟨hInv, rfl, rfl, by simp, by simp, by simp⟩
    · rw [if_neg hmin]
      have hfincase :
          Inv cfg (finalizeSegment st).1 ∧
          (finalizeSegment st).1.carry = st.carry ∧
          (finalizeSegment st).1.inQueue = st.inQueue ∧
          (finalizeSegment st).1.nextIndex
            = st.nextIndex + (finalizeSegment st).2.toList.length ∧
          ((finalizeSegment st).2.toList ≠ [] → segLive st = true) ∧
          ∀ s ∈ (finalizeSegment st).2.toList,
            s.index = st.nextIndex ∧ s.pcm16.length = st.totalInSeg ∧ segWellFormed cfg s := by
        obtain ⟨hLA, hTot, hPend, hIdle, hOpen⟩ := hInv
        have hreset := finalizeSegment_reset st
        refine ⟨Inv_finalizeSegment cfg st, hreset.2.2.2.2.2.2.2.2.1,
          hreset.2.2.2.2.2.2.2.2.2.1, hreset.2.2.2.2.2.2.2.2.2.2, fun _ => hLive, ?_⟩
        rw [finalizeSegment_emit cfg st ⟨hLA, hTot, hPend, hIdle, hOpen⟩ hLive]
        intro s hs
        rw [Option.toList_some, List.mem_singleton] at hs
        subst hs
        obtain ⟨f, k, hf, hl, hk, he, hv⟩ := hOpen hsp
        refine ⟨rfl, by show st.frames.flatten.length = st.totalInSeg; rw [hTot],
          ?_, ?_, ?_, ?_, ?_⟩
        · show st.frames.flatten ≠ []
          rw [← List.length_pos, ← hTot]
          exact hT
        · show st.startedTs.getD 0 + (st.totalInSeg : ℚ) / 16000
            = st.startedTs.getD 0 + ((st.frames.flatten.length : ℕ) : ℚ) / 16000
          rw [← hTot]
        · show jsRound ((st.totalInSeg : ℚ) * 1000 / 16000)
            = jsRound (((st.frames.flatten.length : ℕ) : ℚ) * 1000 / 16000)
          rw [← hTot]
        · show cfg.minSegmentMs ≤ ((st.frames.flatten.length : ℕ) : ℚ) * 1000 / 16000
          rw [← hTot]
          linarith [not_lt.mp hmin]
        · exact ⟨st.frames.dropLast.flatten, f, k, flatten_getLast hf, hl, he, hv⟩
      by_cases hgap : cfg.silenceGapMs ≤
          (if processed = true then (st.silenceSamples : ℚ) * 1000 / 16000
           else max 0 ((now - (st.startedTs.getD 0 + (st.lastActiveSamples : ℚ) / 16000)) * 1000))
      · rw [if_pos hgap]
        exact hfincase
      · rw [if_neg hgap]
        by_cases hmax : cfg.maxSegmentMs ≤ (st.totalInSeg : ℚ) * 1000 / 16000
        · rw [if_pos hmax]
          exact hfincase
        · rw [if_neg hmax]
          exact ⟨hInv, rfl, rfl, by simp, by simp, by simp⟩

/-- After any `_maybeFinalizePost`, an open live segment is strictly below
the cap (given `minSegmentMs ≤ maxSegmentMs`): the bound is re-established
by every flush regardless of the incoming state. -/
theorem maybeFinalizePost_durInv (cfg : SegConfig) (now : ℚ) (processed : Bool) (st : UserBuf)
    (hmm : cfg.minSegmentMs ≤ cfg.maxSegmentMs) (hpos : 0 < cfg.maxSegmentMs) :
    DurInv cfg (maybeFinalizePost cfg now processed st).1 := by
  simp only [maybeFinalizePost]
  by_cases h1 : segLive st = false
  · rw [if_pos h1]
    intro hsp hts
    have hnl : ¬(st.inSpeech = true ∧ st.startedTs.getD 0 ≠ 0 ∧ 0 < st.totalInSeg) := by
      intro hc
      rw [(segLive_true_iff st).mpr hc] at h1
      simp at h1
    have hT : st.totalInSeg = 0 := by
      by_contra hT0
      exact hnl ⟨hsp, hts, by omega⟩
    rw [hT]
    simpa using hpos
  · rw [if_neg h1]
    by_cases hmin : (st.totalInSeg : ℚ) * 1000 / 16000 < cfg.minSegmentMs
    · rw [if_pos hmin]
      intro _ _
      linarith
    · rw [if_neg hmin]
      by_cases hgap : cfg.silenceGapMs ≤
          (if processed = true then (st.silenceSamples : ℚ) * 1000 / 16000
           else max 0 ((now - (st.startedTs.getD 0 + (st.lastActiveSamples : ℚ) / 16000)) * 1000))
      · rw [if_pos hgap]
        intro hsp _
        rw [(finalizeSegment_reset st).1] at hsp
        simp at hsp
      · rw [if_neg hgap]
        by_cases hmax : cfg.maxSegmentMs ≤ (st.totalInSeg : ℚ) * 1000 / 16000
        · rw [if_pos hmax]
          intro hsp _
          rw [(finalizeSegment_reset st).1] at hsp
          simp at hsp
        · rw [if_neg hmax]
          intro _ _
          linarith [not_le.mp hmax]

theorem flushAll_eq_none (cfg : SegConfig) (now : ℚ) (st : UserBuf)
    (hw : (st.carry ++ st.inQueue.flatten).length = 0) :
    flushAll cfg now st = maybeFinalizePost cfg now false st := by
  rw [flushAll]
  simp only [buildWorkBuffer]
  rw [if_pos hw]

theorem flushAll_eq_some (cfg : SegConfig) (now : ℚ) (st : UserBuf)
    (hw : ¬ (st.carry ++ st.inQueue.flatten).length = 0) :
    flushAll cfg now st =
      maybeFinalizePost cfg now
        (decide (vadFrameSamples cfg ≤ (st.carry ++ st.inQueue.flatten).length))
        { (processFrames cfg (vadFrameSamples cfg) now { st with inQueue := [], carry := [] }
            (st.carry ++ st.inQueue.flatten)).1 with
          carry := (processFrames cfg (vadFrameSamples cfg) now
            { st with inQueue := [], carry := [] } (st.carry ++ st.inQueue.flatten)).2 } := by
  rw [flushAll]
  simp only [buildWorkBuffer]
  rw [if_neg hw]

/-- `flushAll` preserves the invariant, allocates indices sequentially, and
every emitted segment is well-formed and carries the pre-flush `nextIndex`. -/
theorem flushAll_spec (cfg : SegConfig) (now : ℚ) (st : UserBuf) (hInv : Inv cfg st) :
    Inv cfg (flushAll cfg now st).1 ∧
    (flushAll cfg now st).1.nextIndex = st.nextIndex + (flushAll cfg now st).2.toList.length ∧
    ∀ s ∈ (flushAll cfg now st).2.toList, s.index = st.nextIndex ∧ segWellFormed cfg s := by
  by_cases hw : (st.carry ++ st.inQueue.flatten).length = 0
  · rw [flushAll_eq_none cfg now st hw]
    have h := maybeFinalizePost_spec cfg now false st hInv
    exact ⟨h.1, h.2.2.2.1, fun s hs => ⟨(h.2.2.2.2.2 s hs).1, (h.2.2.2.2.2 s hs).2.2⟩⟩
  · rw [flushAll_eq_some cfg now st hw]
    have hpr := processFrames_spec cfg now (st.carry ++ st.inQueue.flatten)
      { st with inQueue := [], carry := [] } hInv
    have hmp := maybeFinalizePost_spec cfg now
      (decide (vadFrameSamples cfg ≤ (st.carry ++ st.inQueue.flatten).length))
      { (processFrames cfg (vadFrameSamples cfg) now { st with inQueue := [], carry := [] }
          (st.carry ++ st.inQueue.flatten)).1 with
        carry := (processFrames cfg (vadFrameSamples cfg) now
          { st with inQueue := [], carry := [] } (st.carry ++ st.inQueue.flatten)).2 }
      hpr.1
    refine ⟨hmp.1, ?_, fun s hs => ⟨((hmp.2.2.2.2.2 s hs).1).trans hpr.2.1,
      (hmp.2.2.2.2.2 s hs).2.2⟩⟩
    rw [hmp.2.2.2.1]
    have : ({ (processFrames cfg (vadFrameSamples cfg) now { st with inQueue := [], carry := [] }
        (st.carry ++ st.inQueue.flatten)).1 with
          carry := (processFrames cfg (vadFrameSamples cfg) now
            { st with inQueue := [], carry := [] } (st.carry ++ st.inQueue.flatten)).2
        } : UserBuf).nextIndex = st.nextIndex := hpr.2.1
    rw [this]

/-- The duration of a segment emitted by one `flushAll` is below
`maxSegmentMs` plus the audio buffered for the user at flush time (work
buffer plus buffered in-segment silence) plus the rounding half. -/
theorem flushAll_durBound (cfg : SegConfig) (now : ℚ) (st : UserBuf)
    (hInv : Inv cfg st) (hDur : DurInv cfg st)
    (hmm : cfg.minSegmentMs ≤ cfg.maxSegmentMs) (hpos : 0 < cfg.maxSegmentMs) :
    (∀ s, (flushAll cfg now st).2 = some s →
      (s.durationMs : ℚ) < cfg.maxSegmentMs
        + ((st.carry.length + st.inQueue.flatten.length + st.pendingSilenceSamples : ℕ) : ℚ)
            * 1000 / 16000 + 1/2) ∧
    DurInv cfg (flushAll cfg now st).1 := by
  have hBnn : (0:ℚ) ≤
      ((st.carry.length + st.inQueue.flatten.length + st.pendingSilenceSamples : ℕ) : ℚ)
        * 1000 / 16000 := by positivity
  by_cases hw : (st.carry ++ st.inQueue.flatten).length = 0
  · rw [flushAll_eq_none cfg now st hw]
    refine ⟨?_, maybeFinalizePost_durInv cfg now false st hmm hpos⟩
    intro s hs
    have hmp := maybeFinalizePost_spec cfg now false st hInv
    have hsmem : s ∈ (maybeFinalizePost cfg now false st).2.toList := by
      rw [hs]
      simp
    have hfacts := hmp.2.2.2.2.2 s hsmem
    have hlive := hmp.2.2.2.2.1 (by rw [hs]; simp)
    obtain ⟨hsp, hts, hT⟩ := (segLive_true_iff st).mp hlive
    have hdm := hfacts.2.2.2.2.1
    rw [hdm, hfacts.2.1]
    have h1 := jsRound_le ((st.totalInSeg : ℚ) * 1000 / 16000)
    have h2 := hDur hsp hts
    linarith
  · rw [flushAll_eq_some cfg now st hw]
    refine ⟨?_, maybeFinalizePost_durInv cfg now _ _ hmm hpos⟩
    intro s hs
    have hprs := processFrames_spec cfg now (st.carry ++ st.inQueue.flatten)
      { st with inQueue := [], carry := [] } hInv
    have hmp := maybeFinalizePost_spec cfg now
      (decide (vadFrameSamples cfg ≤ (st.carry ++ st.inQueue.flatten).length))
      { (processFrames cfg (vadFrameSamples cfg) now { st with inQueue := [], carry := [] }
          (st.carry ++ st.inQueue.flatten)).1 with
        carry := (processFrames cfg (vadFrameSamples cfg) now
          { st with inQueue := [], carry := [] } (st.carry ++ st.inQueue.flatten)).2 }
      hprs.1
    have hsmem : s ∈ (maybeFinalizePost cfg now
        (decide (vadFrameSamples cfg ≤ (st.carry ++ st.inQueue.flatten).length))
        { (processFrames cfg (vadFrameSamples cfg) now { st with inQueue := [], carry := [] }
            (st.carry ++ st.inQueue.flatten)).1 with
          carry := (processFrames cfg (vadFrameSamples cfg) now
            { st with inQueue := [], carry := [] } (st.carry ++ st.inQueue.flatten)).2
        }).2.toList := by
      rw [hs]
      simp
    have hfacts := hmp.2.2.2.2.2 s hsmem
    have hlive := hmp.2.2.2.2.1 (by rw [hs]; simp)
    obtain ⟨hsp2, hts2, hT2⟩ := (segLive_true_iff _).mp hlive
    -- the pre-flush open total is below the cap
    have hTpre : (st.totalInSeg : ℚ) * 1000 / 16000 < cfg.maxSegmentMs := by
      cases hpre : st.inSpeech with
      | false =>
          obtain ⟨_, h0, _⟩ := hInv.2.2.2.1 hpre
          rw [h0]
          simpa using hpos
      | true =>
          have hpres := hprs.2.2.2.2 hpre
          have hts' : st.startedTs.getD 0 ≠ 0 := by
            rw [← hpres.2]
            exact hts2
          exact hDur hpre hts'
    -- the emitted sample count is bounded by pre-flush total + pending + work
    have e1 : ({ st with inQueue := ([] : List (List ℤ)), carry := ([] : List ℤ) }
        : UserBuf).totalInSeg = st.totalInSeg := rfl
    have e2 : ({ st with inQueue := ([] : List (List ℤ)), carry := ([] : List ℤ) }
        : UserBuf).pendingSilenceSamples = st.pendingSilenceSamples := rfl
    have hgrow := hprs.2.2.2.1
    have hlen := hfacts.2.1
    have e3 : ({ (processFrames cfg (vadFrameSamples cfg) now
          { st with inQueue := [], carry := [] } (st.carry ++ st.inQueue.flatten)).1 with
        carry := (processFrames cfg (vadFrameSamples cfg) now
          { st with inQueue := [], carry := [] } (st.carry ++ st.inQueue.flatten)).2
        } : UserBuf).totalInSeg
        = (processFrames cfg (vadFrameSamples cfg) now
            { st with inQueue := [], carry := [] } (st.carry ++ st.inQueue.flatten)).1.totalInSeg :=
      rfl
    have hT2le : s.pcm16.length
        ≤ st.totalInSeg + st.pendingSilenceSamples
          + (st.carry ++ st.inQueue.flatten).length := by
      rw [hlen]
      omega
    -- cast and conclude
    have hcast : (s.pcm16.length : ℚ)
        ≤ ((st.totalInSeg + st.pendingSilenceSamples
            + (st.carry ++ st.inQueue.flatten).length : ℕ) : ℚ) := by
      exact_mod_cast hT2le
    have hmono : (s.pcm16.length : ℚ) * 1000 / 16000
        ≤ ((st.totalInSeg + st.pendingSilenceSamples
            + (st.carry ++ st.inQueue.flatten).length : ℕ) : ℚ) * 1000 / 16000 := by
      apply (div_le_div_right (by norm_num : (0:ℚ) < 16000)).mpr
      apply mul_le_mul_of_nonneg_right hcast
      norm_num
    have hsplit : ((st.totalInSeg + st.pendingSilenceSamples
          + (st.carry ++ st.inQueue.flatten).length : ℕ) : ℚ) * 1000 / 16000
        = (st.totalInSeg : ℚ) * 1000 / 16000
          + ((st.carry.length + st.inQueue.flatten.length
              + st.pendingSilenceSamples : ℕ) : ℚ) * 1000 / 16000 := by
      push_cast [List.length_append]
      ring
    have hdm := hfacts.2.2.2.2.1
    rw [hdm]
    have h1 := jsRound_le ((s.pcm16.length : ℚ) * 1000 / 16000)
    linarith

/-- Every run of the segmenter: state invariant, `nextIndex` counts the
emissions, indices form `0, 1, 2, …` in emission order, and every emitted
segment is well-formed. -/
theorem runSeg_facts (cfg : SegConfig) (ops : List SegOp) :
    Inv cfg (runSeg cfg ops).1 ∧
    (runSeg cfg ops).1.nextIndex = (runSeg cfg ops).2.length ∧
    (runSeg cfg ops).2.map (·.index) = List.range (runSeg cfg ops).2.length ∧
    ∀ s ∈ (runSeg cfg ops).2, segWellFormed cfg s := by
  rw [runSeg]
  suffices h : ∀ (st : UserBuf) (segs : List VoiceSegment),
      Inv cfg st → st.nextIndex = segs.length →
      segs.map (·.index) = List.range segs.length →
      (∀ s ∈ segs, segWellFormed cfg s) →
      Inv cfg (ops.foldl (segOpStep cfg) (st, segs)).1 ∧
      (ops.foldl (segOpStep cfg) (st, segs)).1.nextIndex
        = (ops.foldl (segOpStep cfg) (st, segs)).2.length ∧
      (ops.foldl (segOpStep cfg) (st, segs)).2.map (·.index)
        = List.range (ops.foldl (segOpStep cfg) (st, segs)).2.length ∧
      ∀ s ∈ (ops.foldl (segOpStep cfg) (st, segs)).2, segWellFormed cfg s by
    exact h initBuf [] (Inv_init cfg) rfl rfl (by simp)
  induction ops with
  | nil =>
      intro st segs h1 h2 h3 h4
      exact ⟨h1, h2, h3, h4⟩
  | cons op ops ih =>
      intro st segs h1 h2 h3 h4
      cases op with
      | push pcm =>
          rw [List.foldl_cons]
          exact ih (pushStereo48 st pcm) segs h1 h2 h3 h4
      | flush now =>
          rw [List.foldl_cons]
          have hf := flushAll_spec cfg now st h1
          show Inv cfg ((ops.foldl (segOpStep cfg)
              ((flushAll cfg now st).1, segs ++ (flushAll cfg now st).2.toList))).1 ∧ _
          apply ih
          · exact hf.1
          · rw [hf.2.1, h2, List.length_append]
          · rw [List.map_append, h3, List.length_append]
            cases hemit : (flushAll cfg now st).2 with
            | none => simp
            | some s =>
                have hidx := (hf.2.2 s (by rw [hemit]; simp)).1
                simp only [Option.toList_some, List.map_cons, List.map_nil,
                  List.length_singleton]
                rw [hidx, h2, List.range_succ]
          · intro s hs
            rcases List.mem_append.mp hs with h | h
            · exact h4 s h
            · exact (hf.2.2 s h).2

/-- Between operations, an open live segment is always strictly below the
length cap (when `minSegmentMs ≤ maxSegmentMs`). -/
theorem runSeg_durInv (cfg : SegConfig) (hmm : cfg.minSegmentMs ≤ cfg.maxSegmentMs)
    (hpos : 0 < cfg.maxSegmentMs) (ops : List SegOp) :
    DurInv cfg (runSeg cfg ops).1 := by
  rw [runSeg]
  suffices h : ∀ (st : UserBuf) (segs : List VoiceSegment), DurInv cfg st →
      DurInv cfg (ops.foldl (segOpStep cfg) (st, segs)).1 by
    exact h initBuf [] (fun hsp _ => by simp [initBuf] at hsp)
  induction ops with
  | nil =>
      intro st segs h
      exact h
  | cons op ops ih =>
      intro st segs h
      cases op with
      | push pcm =>
          rw [List.foldl_cons]
          exact ih _ _ h
      | flush now =>
          rw [List.foldl_cons]
          apply ih
          show DurInv cfg (flushAll cfg now st).1
          by_cases hw : (st.carry ++ st.inQueue.flatten).length = 0
          · rw [flushAll_eq_none cfg now st hw]
            exact maybeFinalizePost_durInv cfg now false st hmm hpos
          · rw [flushAll_eq_some cfg now st hw]
            exact maybeFinalizePost_durInv cfg now _ _ hmm hpos

/-- A small concrete configuration: 1 ms VAD frames (16 samples), 1 ms
minimum segment, 2 ms length cap, 1000 ms silence gap, with both classifier
stages always passing (loud speech). -/
def cexCfg : SegConfig := ⟨fun _ => true, fun _ => VADEvent.VOICE, 1, 1000, 1, 2⟩

/-- 576 interleaved stereo 48 kHz samples (6 ms of audio = 96 samples after
downmix and resample to 16 kHz). -/
def cexPcm : List ℤ := List.replicate 576 1000

def cexOps : List SegOp := [SegOp.push cexPcm, SegOp.flush 1]

set_option maxRecDepth 100000 in
/-- C1 counterexample: the length cap is only checked once per flush pass,
after the whole buffered work buffer has been processed
(`_maybeFinalizePost` runs outside the frame loop), so a single flush that
drains more than one frame past the cap overshoots by the whole excess.
With `maxSegmentMs = 2` and `vadFrameMs = 1` (frame = 16 samples), pushing
6 ms of always-active audio and flushing once emits one segment of
`durationMs = 6 > maxSegmentMs + vadFrameMs = 3`. -/
theorem maxSegment_overshoot_cex :
    ((runSeg cexCfg cexOps).2.map (·.durationMs)) = [6] ∧
    cexCfg.maxSegmentMs + cexCfg.vadFrameMs < 6 := by
  constructor
  · with_unfolding_all decide
  · with_unfolding_all decide

/-- C1 (amended): a segment is finalized by the first flush pass that sees
its duration at or past `maxSegmentMs`, but the check runs only once per
flush, after the entire buffered work buffer has been processed.  Hence an
emitted segment's `durationMs` is below `maxSegmentMs` plus the audio
buffered for that user when the finalizing flush ran (carry + queued input
+ buffered in-segment silence) plus the rounding half-millisecond — not
`maxSegmentMs` plus one VAD frame.  (Requires `minSegmentMs ≤ maxSegmentMs`
and a positive cap, as in the defaults 200 ≤ 30000.) -/
theorem maxSegment_cap_spec (cfg : SegConfig) (ops : List SegOp) (now : ℚ)
    (hmm : cfg.minSegmentMs ≤ cfg.maxSegmentMs) (hpos : 0 < cfg.maxSegmentMs)
    (s : VoiceSegment)
    (hem : (runSeg cfg (ops ++ [SegOp.flush now])).2 = (runSeg cfg ops).2 ++ [s]) :
    (s.durationMs : ℚ) < cfg.maxSegmentMs
      + (((runSeg cfg ops).1.carry.length + (runSeg cfg ops).1.inQueue.flatten.length
          + (runSeg cfg ops).1.pendingSilenceSamples : ℕ) : ℚ) * 1000 / 16000 + 1/2 := by
  have hsplit : runSeg cfg (ops ++ [SegOp.flush now])
      = segOpStep cfg (runSeg cfg ops) (SegOp.flush now) := by
    rw [runSeg, runSeg, List.foldl_append, List.foldl_cons, List.foldl_nil]
  have h2 : (segOpStep cfg (runSeg cfg ops) (SegOp.flush now)).2
      = (runSeg cfg ops).2 ++ (flushAll cfg now (runSeg cfg ops).1).2.toList := rfl
  rw [hsplit, h2] at hem
  have hopt : (flushAll cfg now (runSeg cfg ops).1).2.toList = [s] :=
    List.append_cancel_left hem
  have hsome : (flushAll cfg now (runSeg cfg ops).1).2 = some s := by
    cases ho : (flushAll cfg now (runSeg cfg ops).1).2 with
    | none =>
        rw [ho] at hopt
        simp at hopt
    | some t =>
        rw [ho] at hopt
        simp only [Option.toList_some, List.cons.injEq, and_true] at hopt
        rw [hopt]
  exact (flushAll_durBound cfg now (runSeg cfg ops).1 (runSeg_facts cfg ops).1
    (runSeg_durInv cfg hmm hpos ops) hmm hpos).1 s hsome

/-- The segment emitted by the run `cexOps` on `cexCfg`. -/
def cexSeg : VoiceSegment := ⟨0, 1, 1 + (96 : ℚ) / 16000, 6, List.replicate 96 1000⟩

set_option maxRecDepth 400000 in
/-- Witness for the amended C1 at the concrete overshoot run: the emitted
6 ms segment respects the buffered-audio bound `2 + 6 + 1/2`. -/
theorem maxSegment_cap_spec_witness :
    ((cexSeg.durationMs : ℚ)) < cexCfg.maxSegmentMs
      + (((runSeg cexCfg [SegOp.push cexPcm]).1.carry.length
          + (runSeg cexCfg [SegOp.push cexPcm]).1.inQueue.flatten.length
          + (runSeg cexCfg [SegOp.push cexPcm]).1.pendingSilenceSamples : ℕ) : ℚ)
        * 1000 / 16000 + 1/2 :=
  maxSegment_cap_spec cexCfg [SegOp.push cexPcm] 1
    (by with_unfolding_all decide) (by with_unfolding_all decide)
    cexSeg (by with_unfolding_all decide)

/-- C4: across any sequence of `pushStereo48` and `flushAll` operations the
emitted segments' `index` values are exactly `0, 1, 2, …` in emission
order: the counter survives finalizations and speech-state resets. -/
theorem index_contiguous_spec (cfg : SegConfig) (ops : List SegOp) :
    (runSeg cfg ops).2.map (·.index) = List.range (runSeg cfg ops).2.length :=
  (runSeg_facts cfg ops).2.2.1

/-- C5: with an integral `minSegmentMs` (the config is in whole
milliseconds; default 200), every emitted segment's `durationMs` is at
least `minSegmentMs`: segments shorter than the minimum are never emitted,
no matter how much silence follows. -/
theorem minSegment_spec (cfg : SegConfig) (m : ℤ) (hm : cfg.minSegmentMs = (m : ℚ))
    (ops : List SegOp) :
    ∀ s ∈ (runSeg cfg ops).2, m ≤ s.durationMs := by
  intro s hs
  obtain ⟨hne, hcap, hdm, hmin, _⟩ := (runSeg_facts cfg ops).2.2.2 s hs
  rw [hdm]
  rw [hm] at hmin
  have h := jsRound_mono hmin
  rw [jsRound_intCast] at h
  exact h

set_option maxRecDepth 400000 in
/-- Witness for C5: the segment emitted by the concrete run has
`durationMs = 6 ≥ minSegmentMs = 1`. -/
theorem minSegment_spec_witness : (1 : ℤ) ≤ cexSeg.durationMs :=
  minSegment_spec cexCfg 1 (by with_unfolding_all decide) cexOps
    cexSeg (by with_unfolding_all decide)

/-- `audioUtils.ts` `rmsDbFs` over exact reals: mean square of the samples
scaled by `1/32768`, `20*log10(max(rms, 1e-9))`.  (The source returns
`-Infinity` for an empty frame; the flush loop only ever classifies frames
of `vadFrameSamples ≥ 1` samples, so that case never reaches the VAD.) -/
noncomputable def rmsDbFs (frame : List ℤ) : ℝ :=
  let sumSq : ℝ := (frame.map (fun v => ((v : ℝ) / 32768) * ((v : ℝ) / 32768))).sum
  let rms : ℝ := Real.sqrt (sumSq / (frame.length : ℝ))
  20 * Real.logb 10 (max rms (1e-9 : ℝ))

/-- The stage-1 energy prefilter of the flush loop:
`rmsDbFs(frame) >= vadDbThreshold`. -/
noncomputable def energyDb (thresh : ℝ) (frame : List ℤ) : Bool :=
  decide (rmsDbFs frame ≥ thresh)

/-- C7: with the source's energy stage (`rmsDbFs(frame) >= thresh`), a
frame is classified active iff its RMS dBFS level is at least the threshold
AND the per-user WebRTC VAD returns `VOICE`; the VAD is consulted (its
verdict stream advanced) iff the energy stage passes — on an energy
failure the frame is inactive and the segmenter state is untouched. -/
theorem vadClassify_spec (thresh : ℝ) (cfg : SegConfig) (st : UserBuf) (frame : List ℤ)
    (h : cfg.energy = energyDb thresh) :
    ((classifyFrame cfg st frame).1 = true ↔
      (rmsDbFs frame ≥ thresh ∧ cfg.vadStream st.vadCalls = VADEvent.VOICE)) ∧
    ((classifyFrame cfg st frame).2.vadCalls =
      if rmsDbFs frame ≥ thresh then st.vadCalls + 1 else st.vadCalls) ∧
    (¬ rmsDbFs frame ≥ thresh →
      (classifyFrame cfg st frame).1 = false ∧ (classifyFrame cfg st frame).2 = st) := by
  rw [classifyFrame, h, energyDb]
  by_cases hle : rmsDbFs frame ≥ thresh
  · rw [if_pos (by simpa using hle)]
    refine ⟨by simp [hle], by rw [if_pos hle], fun hc => absurd hle hc⟩
  · rw [if_neg (by simpa using hle)]
    exact ⟨by simp [hle], by rw [if_neg hle], fun _ => ⟨rfl, rfl⟩⟩

/-- A configuration running the real two-stage classifier with threshold 0. -/
noncomputable def vadDemoCfg : SegConfig :=
  ⟨energyDb 0, fun _ => VADEvent.VOICE, 30, 1250, 200, 30000⟩

/-- Witness for C7 at a concrete frame: the VAD stream position advances
iff the energy stage passes. -/
theorem vadClassify_spec_witness :
    (classifyFrame vadDemoCfg initBuf [0]).2.vadCalls
      = if rmsDbFs [0] ≥ (0 : ℝ) then initBuf.vadCalls + 1 else initBuf.vadCalls :=
  (vadClassify_spec 0 vadDemoCfg initBuf [0] rfl).2.1

end WhisperScribe
